import Mathlib

/-!
Verification of the leafer-x-richText rich-text engine.

Shallow embedding of `src/richtext/RichText.ts` (plus the `EditingManager`
singleton): character styles, the two-level style store, linear/(line,column)
coordinate mapping, selection styling, full-text styling, the style-range
codec, justify alignment, the diff-based edit pipeline's style migration,
undo/redo snapshots, and the editing-state machine.

JavaScript `Map`s are modelled as association lists in insertion order
(`jsGet` finds the first matching key, `jsSet` replaces in place or appends,
matching `Map.get` / `Map.set`).  Numbers that take part in layout arithmetic
are modelled as rationals.
-/

/-- `IUnitData`-style value: a plain number, a percent unit, or a px unit
(`letterSpacing?: number | IUnitData`). -/
inductive NumOrUnit where
  | num (x : ℚ)
  | percent (x : ℚ)
  | px (x : ℚ)
deriving DecidableEq, Repr

/-- `ICharStyle` from `types.ts`: a partial character-style record.
Colors, font families, weights, cases and decorations are opaque and
modelled as `Nat` identifiers. -/
structure CharStyle where
  fill : Option Nat := none
  fontSize : Option ℚ := none
  fontFamily : Option Nat := none
  fontWeight : Option Nat := none
  italic : Option Bool := none
  textCase : Option Nat := none
  textDecoration : Option Nat := none
  letterSpacing : Option NumOrUnit := none
  textBackgroundColor : Option Nat := none
  underline : Option Bool := none
  linethrough : Option Bool := none
deriving DecidableEq, Repr

instance : Inhabited CharStyle := ⟨{}⟩

/-- The field names of `ICharStyle`, for quantifying over "fields named in a
partial style record". -/
inductive StyleField where
  | fill | fontSize | fontFamily | fontWeight | italic | textCase
  | textDecoration | letterSpacing | textBackgroundColor | underline | linethrough
deriving DecidableEq, Repr

/-- A style value, wrapping the heterogeneous field types. -/
inductive StyleVal where
  | nat (n : Nat)
  | rat (q : ℚ)
  | bool (b : Bool)
  | unit (u : NumOrUnit)
deriving DecidableEq, Repr

/-- Project a field of a partial style record. -/
def CharStyle.getField (s : CharStyle) : StyleField → Option StyleVal
  | .fill => s.fill.map .nat
  | .fontSize => s.fontSize.map .rat
  | .fontFamily => s.fontFamily.map .nat
  | .fontWeight => s.fontWeight.map .nat
  | .italic => s.italic.map .bool
  | .textCase => s.textCase.map .nat
  | .textDecoration => s.textDecoration.map .nat
  | .letterSpacing => s.letterSpacing.map .unit
  | .textBackgroundColor => s.textBackgroundColor.map .nat
  | .underline => s.underline.map .bool
  | .linethrough => s.linethrough.map .bool

/-- A field is "named" in a partial style record when it is present. -/
def CharStyle.named (s : CharStyle) (f : StyleField) : Prop :=
  (s.getField f).isSome

instance (s : CharStyle) (f : StyleField) : Decidable (s.named f) := by
  unfold CharStyle.named; infer_instance

/-- JS object spread `{...a, ...b}` on two partial style records: a field
present in `b` wins, otherwise `a`'s value is kept. -/
def mergeStyle (a b : CharStyle) : CharStyle where
  fill := b.fill.orElse fun _ => a.fill
  fontSize := b.fontSize.orElse fun _ => a.fontSize
  fontFamily := b.fontFamily.orElse fun _ => a.fontFamily
  fontWeight := b.fontWeight.orElse fun _ => a.fontWeight
  italic := b.italic.orElse fun _ => a.italic
  textCase := b.textCase.orElse fun _ => a.textCase
  textDecoration := b.textDecoration.orElse fun _ => a.textDecoration
  letterSpacing := b.letterSpacing.orElse fun _ => a.letterSpacing
  textBackgroundColor := b.textBackgroundColor.orElse fun _ => a.textBackgroundColor
  underline := b.underline.orElse fun _ => a.underline
  linethrough := b.linethrough.orElse fun _ => a.linethrough

theorem Option.map_orElse_distrib {α β : Type} (f : α → β) (a b : Option α) :
    Option.map f (a.orElse fun _ => b) = ((Option.map f a).orElse fun _ => Option.map f b) := by
  cases a <;> rfl

theorem mergeStyle_getField (a b : CharStyle) (f : StyleField) :
    (mergeStyle a b).getField f = ((b.getField f).orElse fun _ => a.getField f) := by
  cases f <;> simp only [mergeStyle, CharStyle.getField, Option.map_orElse_distrib]

/-- Element-level default style: the eight style properties the `RichText`
element declares (`fontSize`, `fontFamily`, `fontWeight`, `fill`, `italic`,
`textCase`, `textDecoration`, `letterSpacing`). -/
structure ElementStyle where
  fill : Nat
  fontSize : ℚ
  fontFamily : Nat
  fontWeight : Nat
  italic : Bool
  textCase : Nat
  textDecoration : Nat
  letterSpacing : NumOrUnit
deriving DecidableEq, Repr

/-- The base record `_getCharStyle` builds from the element's properties. -/
def ElementStyle.toStyle (el : ElementStyle) : CharStyle where
  fill := some el.fill
  fontSize := some el.fontSize
  fontFamily := some el.fontFamily
  fontWeight := some el.fontWeight
  italic := some el.italic
  textCase := some el.textCase
  textDecoration := some el.textDecoration
  letterSpacing := some el.letterSpacing

/-- Whether a `StyleField` is one of the eight element-level properties. -/
def isElementField : StyleField → Bool
  | .fill | .fontSize | .fontFamily | .fontWeight | .italic | .textCase
  | .textDecoration | .letterSpacing => true
  | _ => false

/-- `_getCharStyle`: resolve a character's effective style by overlaying its
override (or `{}`) on the element defaults:
`{fill: this.fill, ..., ...charStyle}`. -/
def getCharStyle (el : ElementStyle) (ov : Option CharStyle) : CharStyle :=
  mergeStyle el.toStyle (ov.getD {})

/-! ### JS `Map` as an association list (insertion order) -/

/-- `Map.get`: first entry with the key. -/
def jsGet {α : Type} (m : List (Nat × α)) (k : Nat) : Option α :=
  (m.find? fun p => p.1 = k).map Prod.snd

/-- `Map.set`: replace in place if the key exists, else append. -/
def jsSet {α : Type} (m : List (Nat × α)) (k : Nat) (v : α) : List (Nat × α) :=
  if (jsGet m k).isSome then
    m.map fun p => if p.1 = k then (k, v) else p
  else
    m ++ [(k, v)]

/-- `Map.delete`: remove entries with the key. -/
def jsDelete {α : Type} (m : List (Nat × α)) (k : Nat) : List (Nat × α) :=
  m.filter fun p => p.1 ≠ k

theorem jsGet_nil {α : Type} (k : Nat) : jsGet ([] : List (Nat × α)) k = none := rfl

theorem jsGet_cons {α : Type} (a k : Nat) (v : α) (t : List (Nat × α)) :
    jsGet ((a, v) :: t) k = if a = k then some v else jsGet t k := by
  by_cases h : a = k <;> simp [jsGet, List.find?, h]

theorem jsGet_replace_self {α : Type} (m : List (Nat × α)) (k : Nat) (v : α) :
    jsGet (m.map fun p => if p.1 = k then (k, v) else p) k =
      if (jsGet m k).isSome then some v else none := by
  induction m with
  | nil => simp [jsGet_nil]
  | cons p t ih =>
    obtain ⟨a, w⟩ := p
    by_cases h : a = k <;> simp [jsGet_cons, h, ih]

theorem jsGet_replace_ne {α : Type} (m : List (Nat × α)) (k k' : Nat) (v : α)
    (hne : k' ≠ k) :
    jsGet (m.map fun p => if p.1 = k then (k, v) else p) k' = jsGet m k' := by
  induction m with
  | nil => simp
  | cons p t ih =>
    obtain ⟨a, w⟩ := p
    by_cases h : a = k
    · subst h
      simp [jsGet_cons, Ne.symm hne, ih]
    · by_cases h' : a = k' <;> simp [jsGet_cons, h, h', ih, hne]

theorem jsGet_append_one {α : Type} (m : List (Nat × α)) (k k' : Nat) (v : α) :
    jsGet (m ++ [(k, v)]) k' =
      ((jsGet m k').orElse fun _ => if k = k' then some v else none) := by
  induction m with
  | nil => simp [jsGet_nil, jsGet_cons, Option.orElse]
  | cons p t ih =>
    obtain ⟨a, w⟩ := p
    by_cases h : a = k' <;> simp [jsGet_cons, h, ih, Option.orElse]

theorem jsGet_jsSet_self {α : Type} (m : List (Nat × α)) (k : Nat) (v : α) :
    jsGet (jsSet m k v) k = some v := by
  unfold jsSet
  split
  · rename_i h
    rw [jsGet_replace_self, if_pos h]
  · rw [jsGet_append_one]
    rename_i h
    rw [Option.not_isSome_iff_eq_none] at h
    simp [h, Option.orElse]

theorem jsGet_jsSet_ne {α : Type} (m : List (Nat × α)) (k k' : Nat) (v : α)
    (hne : k' ≠ k) : jsGet (jsSet m k v) k' = jsGet m k' := by
  unfold jsSet
  split
  · exact jsGet_replace_ne m k k' v hne
  · rw [jsGet_append_one, if_neg (Ne.symm hne)]
    cases jsGet m k' <;> rfl

/-! ### Lines and the linear/(line,column) coordinate mapper -/

/-- `_splitLinesByNewline`: split the grapheme array at `'\n'`,
accumulating the current line and pushing it at each newline and at the end. -/
def splitLinesByNewline (gs : List Char) : List (List Char) :=
  splitNlAux gs []
where
  splitNlAux : List Char → List Char → List (List Char)
    | [], currentLine => [currentLine]
    | c :: rest, currentLine =>
      if c = '\n' then currentLine :: splitNlAux rest []
      else splitNlAux rest (currentLine ++ [c])

theorem splitLinesByNewline_ne_nil (gs : List Char) : splitLinesByNewline gs ≠ [] := by
  unfold splitLinesByNewline
  generalize [] = cur
  induction gs generalizing cur with
  | nil => simp [splitLinesByNewline.splitNlAux]
  | cons c rest ih =>
    unfold splitLinesByNewline.splitNlAux
    split <;> simp [ih]

/-- `ICursorLocation`. -/
structure CursorLocation where
  lineIndex : Nat
  charIndex : Nat
deriving DecidableEq, Repr

/-- Loop body of `_linearToLocation`: walk the lines accumulating
`length + 1` per line; on falling through, clamp to the last line's end. -/
def linearToLocationGo (lines : List (List Char)) (index : Nat) :
    Nat → Nat → List (List Char) → CursorLocation
  | _, _, [] =>
    ⟨lines.length - 1, ((lines.getLast?).map List.length).getD 0⟩
  | lineIndex, charCount, l :: rest =>
    if index ≤ charCount + l.length then ⟨lineIndex, index - charCount⟩
    else linearToLocationGo lines index (lineIndex + 1) (charCount + l.length + 1) rest

/-- `_linearToLocation`. -/
def linearToLocation (lines : List (List Char)) (index : Nat) : CursorLocation :=
  if lines.isEmpty then ⟨0, 0⟩
  else linearToLocationGo lines index 0 0 lines

/-- `_locationToLinear`: sum `length + 1` over the lines before `lineIndex`
(bounded by the number of lines), plus `charIndex`. -/
def locationToLinear (lines : List (List Char)) (lineIndex charIndex : Nat) : Nat :=
  ((lines.take lineIndex).foldl (fun acc l => acc + (l.length + 1)) 0) + charIndex

/-- Total linear length of a line array: sum of line lengths plus one per
separator between lines. -/
def linearLength : List (List Char) → Nat
  | [] => 0
  | [l] => l.length
  | l :: rest => l.length + 1 + linearLength rest

theorem linearLength_cons (l : List Char) (rest : List (List Char)) (h : rest ≠ []) :
    linearLength (l :: rest) = l.length + 1 + linearLength rest := by
  cases rest with
  | nil => exact absurd rfl h
  | cons a t => rfl

theorem linearLength_singleton (l : List Char) : linearLength [l] = l.length := rfl

theorem foldl_add_init (lines : List (List Char)) (a : Nat) :
    lines.foldl (fun acc l => acc + (l.length + 1)) a =
      a + lines.foldl (fun acc l => acc + (l.length + 1)) 0 := by
  induction lines generalizing a with
  | nil => simp
  | cons l rest ih =>
    simp only [List.foldl_cons]
    rw [ih (a + (l.length + 1)), ih (0 + (l.length + 1))]
    omega

/-- Shorthand for the accumulated offset of a list of lines
(each contributes `length + 1`). -/
def sumLen (lines : List (List Char)) : Nat :=
  lines.foldl (fun acc l => acc + (l.length + 1)) 0

theorem sumLen_append_one (pre : List (List Char)) (l : List Char) :
    sumLen (pre ++ [l]) = sumLen pre + (l.length + 1) := by
  unfold sumLen
  rw [List.foldl_append]
  simp only [List.foldl_cons, List.foldl_nil]

theorem locationToLinear_eq_sumLen (lines : List (List Char)) (li ci : Nat) :
    locationToLinear lines li ci = sumLen (lines.take li) + ci := rfl

theorem linearToLocationGo_roundtrip (suffix pre : List (List Char)) (index : Nat)
    (hne : suffix ≠ [])
    (hlo : sumLen pre ≤ index)
    (hhi : index ≤ sumLen pre + linearLength suffix) :
    locationToLinear (pre ++ suffix)
        (linearToLocationGo (pre ++ suffix) index pre.length (sumLen pre) suffix).lineIndex
        (linearToLocationGo (pre ++ suffix) index pre.length (sumLen pre) suffix).charIndex
      = index := by
  induction suffix generalizing pre with
  | nil => exact absurd rfl hne
  | cons l rest ih =>
    by_cases hin : index ≤ sumLen pre + l.length
    · unfold linearToLocationGo
      rw [if_pos hin]
      simp only
      rw [locationToLinear_eq_sumLen, List.take_left]
      omega
    · cases rest with
      | nil =>
        exfalso
        have hL : linearLength [l] = l.length := rfl
        omega
      | cons r2 t2 =>
        unfold linearToLocationGo
        rw [if_neg hin]
        have hassoc : pre ++ l :: r2 :: t2 = (pre ++ [l]) ++ (r2 :: t2) := by
          simp
        have hlen : pre.length + 1 = (pre ++ [l]).length := by simp
        have hsum : sumLen pre + l.length + 1 = sumLen (pre ++ [l]) := by
          have := sumLen_append_one pre l
          omega
        rw [hassoc, hlen, hsum]
        apply ih
        · simp
        · omega
        · rw [← hsum]
          rw [linearLength_cons l (r2 :: t2) (by simp)] at hhi
          omega

theorem linearToLocationGo_clamp (lines suffix : List (List Char)) (index li cc : Nat)
    (hhi : cc + linearLength suffix < index) :
    linearToLocationGo lines index li cc suffix =
      ⟨lines.length - 1, ((lines.getLast?).map List.length).getD 0⟩ := by
  induction suffix generalizing li cc with
  | nil => rfl
  | cons l rest ih =>
    unfold linearToLocationGo
    rw [if_neg]
    · cases rest with
      | nil => rfl
      | cons r2 t2 =>
        apply ih
        rw [linearLength_cons l (r2 :: t2) (by simp)] at hhi
        omega
    · cases rest with
      | nil =>
        have hL : linearLength [l] = l.length := rfl
        omega
      | cons r2 t2 =>
        rw [linearLength_cons l (r2 :: t2) (by simp)] at hhi
        omega

theorem sumLen_cons (l : List Char) (rest : List (List Char)) :
    sumLen (l :: rest) = (l.length + 1) + sumLen rest := by
  unfold sumLen
  simp only [List.foldl_cons]
  rw [foldl_add_init]
  omega

theorem linearToLocationGo_inv (suffix pre : List (List Char)) (j ci : Nat)
    (hj : j < suffix.length) (hci : ci ≤ (suffix.getD j []).length) :
    linearToLocationGo (pre ++ suffix) (sumLen pre + sumLen (suffix.take j) + ci)
        pre.length (sumLen pre) suffix = ⟨pre.length + j, ci⟩ := by
  induction suffix generalizing pre j with
  | nil => simp at hj
  | cons l rest ih =>
    cases j with
    | zero =>
      unfold linearToLocationGo
      rw [if_pos]
      · have hsz : sumLen (List.take 0 (l :: rest)) = 0 := rfl
        simp only [CursorLocation.mk.injEq]
        omega
      · have hsz : sumLen (List.take 0 (l :: rest)) = 0 := rfl
        have hl0 : (l :: rest).getD 0 [] = l := rfl
        rw [hl0] at hci
        omega
    | succ j' =>
      have htake : sumLen (List.take (j' + 1) (l :: rest)) =
          (l.length + 1) + sumLen (List.take j' rest) := by
        have ht : List.take (j' + 1) (l :: rest) = l :: List.take j' rest := rfl
        rw [ht, sumLen_cons]
      unfold linearToLocationGo
      rw [if_neg]
      · have hassoc : pre ++ l :: rest = (pre ++ [l]) ++ rest := by simp
        have hlen : pre.length + 1 = (pre ++ [l]).length := by simp
        have hsum : sumLen pre + l.length + 1 = sumLen (pre ++ [l]) := by
          have := sumLen_append_one pre l
          omega
        have hidx : sumLen pre + sumLen (List.take (j' + 1) (l :: rest)) + ci =
            sumLen (pre ++ [l]) + sumLen (List.take j' rest) + ci := by
          rw [htake, ← hsum]
          omega
        rw [hassoc, hlen, hsum, hidx]
        have hj' : j' < rest.length := by simpa using hj
        have hci' : ci ≤ (rest.getD j' []).length := by
          have hg : (l :: rest).getD (j' + 1) [] = rest.getD j' [] := rfl
          rw [hg] at hci
          exact hci
        have := ih (pre ++ [l]) j' hj' hci'
        rw [this]
        simp only [CursorLocation.mk.injEq, List.length_append, List.length_cons,
          List.length_nil]
        exact ⟨by omega, trivial⟩
      · rw [htake]
        omega

theorem linearToLocation_locationToLinear (lines : List (List Char)) (li ci : Nat)
    (hli : li < lines.length) (hci : ci ≤ (lines.getD li []).length) :
    linearToLocation lines (locationToLinear lines li ci) = ⟨li, ci⟩ := by
  have hne : lines ≠ [] := by
    intro h
    rw [h] at hli
    simp at hli
  unfold linearToLocation
  rw [if_neg (by simpa using hne)]
  have := linearToLocationGo_inv lines [] li ci hli hci
  simp only [List.nil_append, List.length_nil, Nat.zero_add] at this
  have hzero : sumLen ([] : List (List Char)) = 0 := rfl
  rw [locationToLinear_eq_sumLen]
  rw [hzero] at this
  simpa using this

/-- Injectivity of `locationToLinear` on valid (line, column) pairs. -/
theorem locationToLinear_inj (lines : List (List Char)) (li ci lj cj : Nat)
    (hli : li < lines.length) (hci : ci ≤ (lines.getD li []).length)
    (hlj : lj < lines.length) (hcj : cj ≤ (lines.getD lj []).length)
    (heq : locationToLinear lines li ci = locationToLinear lines lj cj) :
    li = lj ∧ ci = cj := by
  have h1 := linearToLocation_locationToLinear lines li ci hli hci
  have h2 := linearToLocation_locationToLinear lines lj cj hlj hcj
  rw [heq] at h1
  rw [h1] at h2
  have h3 := (CursorLocation.mk.injEq _ _ _ _).mp h2
  exact ⟨h3.1, h3.2⟩

/-- The `[0, L]` half of the coordinate round trip, as a standalone lemma. -/
theorem linear_roundtrip_of_le (lines : List (List Char)) (hne : lines ≠ [])
    (index : Nat) (hle : index ≤ linearLength lines) :
    locationToLinear lines (linearToLocation lines index).lineIndex
      (linearToLocation lines index).charIndex = index := by
  unfold linearToLocation
  rw [if_neg (by simpa using hne)]
  have := linearToLocationGo_roundtrip lines [] index hne (by simp [sumLen])
    (by simpa [sumLen] using hle)
  simpa [sumLen] using this

/-- The beyond-`L` clamp of `_linearToLocation`, as a standalone lemma. -/
theorem linearToLocation_clamp_of_gt (lines : List (List Char)) (hne : lines ≠ [])
    (index : Nat) (hgt : linearLength lines < index) :
    linearToLocation lines index =
      ⟨lines.length - 1, ((lines.getLast?).map List.length).getD 0⟩ := by
  unfold linearToLocation
  rw [if_neg (by simpa using hne)]
  exact linearToLocationGo_clamp lines lines index 0 0 (by simpa using hgt)

/-- C6: the round trip `locationToLinear ∘ linearToLocation` is the identity
on `[0, L]`, and offsets beyond `L` clamp to the last line's end. -/
theorem C6_coordinate_roundtrip (lines : List (List Char)) (hne : lines ≠ []) :
    (∀ index, index ≤ linearLength lines →
      locationToLinear lines (linearToLocation lines index).lineIndex
        (linearToLocation lines index).charIndex = index) ∧
    (∀ index, linearLength lines < index →
      linearToLocation lines index =
        ⟨lines.length - 1, ((lines.getLast?).map List.length).getD 0⟩) :=
  ⟨fun index hle => linear_roundtrip_of_le lines hne index hle,
   fun index hgt => linearToLocation_clamp_of_gt lines hne index hgt⟩

/-- Witness for C6 at a concrete two-line document `"a\nbc"`. -/
theorem C6_coordinate_roundtrip_witness :
    ([['a'], ['b', 'c']] : List (List Char)) ≠ [] ∧
    locationToLinear [['a'], ['b', 'c']]
      (linearToLocation [['a'], ['b', 'c']] 3).lineIndex
      (linearToLocation [['a'], ['b', 'c']] 3).charIndex = 3 ∧
    linearToLocation [['a'], ['b', 'c']] 9 = ⟨1, 2⟩ := by
  refine ⟨by decide, ?_, ?_⟩
  · exact (C6_coordinate_roundtrip [['a'], ['b', 'c']] (by decide)).1 3 (by decide)
  · exact (C6_coordinate_roundtrip [['a'], ['b', 'c']] (by decide)).2 9 (by decide)

/-! ### The two-level style store -/

/-- A two-level JS `Map`: `lineIndex -> charIndex -> payload` (JS is
untyped, so the store model is generic in the stored record type). -/
abbrev Store (α : Type) := List (Nat × List (Nat × α))

/-- `StyleMap`: the style store, `lineIndex -> charIndex -> style`. -/
abbrev StyleMap := Store CharStyle

/-- Look up the override of a (line, column) position. -/
def styleMapGet {α : Type} (m : Store α) (li ci : Nat) : Option α :=
  (jsGet m li).bind fun inner => jsGet inner ci

/-- Shared loop body of `setSelectionStyles` / `setFullTextStyles`:
ensure the line's inner map exists, then merge the partial style onto the
existing override
(`lineStyles.set(charIndex, { ...existing, ...style })`). -/
def setStyleAt (styles : StyleMap) (loc : CursorLocation) (style : CharStyle) : StyleMap :=
  let styles1 := if (jsGet styles loc.lineIndex).isSome then styles
                 else jsSet styles loc.lineIndex []
  let lineStyles := (jsGet styles1 loc.lineIndex).getD []
  let existing := (jsGet lineStyles loc.charIndex).getD {}
  jsSet styles1 loc.lineIndex (jsSet lineStyles loc.charIndex (mergeStyle existing style))

/-- `setSelectionStyles` (style-store effect): for every linear offset in
`[selectionStart, selectionEnd)` merge the partial style onto the existing
override; no-op when the selection is collapsed. -/
def setSelectionStyles (lines : List (List Char)) (styles : StyleMap)
    (selectionStart selectionEnd : Nat) (style : CharStyle) : StyleMap :=
  if selectionStart = selectionEnd then styles
  else (List.range' selectionStart (selectionEnd - selectionStart)).foldl
    (fun m i => setStyleAt m (linearToLocation lines i) style) styles

theorem styleMapGet_setStyleAt (m : StyleMap) (loc : CursorLocation)
    (st : CharStyle) (li ci : Nat) :
    styleMapGet (setStyleAt m loc st) li ci =
      if li = loc.lineIndex ∧ ci = loc.charIndex then
        some (mergeStyle ((styleMapGet m loc.lineIndex loc.charIndex).getD {}) st)
      else styleMapGet m li ci := by
  rcases hm : jsGet m loc.lineIndex with _ | inner
  · have hres : setStyleAt m loc st =
        jsSet (jsSet m loc.lineIndex []) loc.lineIndex
          (jsSet [] loc.charIndex (mergeStyle {} st)) := by
      unfold setStyleAt
      simp only [hm, Option.isSome_none, Bool.false_eq_true, if_false,
        jsGet_jsSet_self, Option.getD_some, jsGet_nil, Option.getD_none]
    rw [hres]
    unfold styleMapGet
    by_cases hli : li = loc.lineIndex
    · subst hli
      rw [jsGet_jsSet_self]
      simp only [Option.some_bind]
      by_cases hci : ci = loc.charIndex
      · subst hci
        rw [jsGet_jsSet_self, if_pos (by simp), hm]
        rfl
      · rw [jsGet_jsSet_ne _ _ _ _ hci, if_neg (fun h => hci h.2), hm]
        rfl
    · rw [jsGet_jsSet_ne _ _ _ _ hli, jsGet_jsSet_ne _ _ _ _ hli,
        if_neg (fun h => hli h.1)]
  · have hres : setStyleAt m loc st =
        jsSet m loc.lineIndex
          (jsSet inner loc.charIndex
            (mergeStyle ((jsGet inner loc.charIndex).getD {}) st)) := by
      unfold setStyleAt
      simp only [hm, Option.isSome_some, if_true, Option.getD_some]
    rw [hres]
    unfold styleMapGet
    by_cases hli : li = loc.lineIndex
    · subst hli
      rw [jsGet_jsSet_self]
      simp only [Option.some_bind]
      by_cases hci : ci = loc.charIndex
      · subst hci
        rw [jsGet_jsSet_self, if_pos (by simp), hm]
        rfl
      · rw [jsGet_jsSet_ne _ _ _ _ hci, if_neg (fun h => hci h.2), hm]
        rfl
    · rw [jsGet_jsSet_ne _ _ _ _ hli, if_neg (fun h => hli h.1)]

theorem fold_setStyleAt_get_not_mem (ls : List CursorLocation) (m : StyleMap)
    (st : CharStyle) (t : CursorLocation) (h : t ∉ ls) :
    styleMapGet (ls.foldl (fun acc loc => setStyleAt acc loc st) m)
        t.lineIndex t.charIndex = styleMapGet m t.lineIndex t.charIndex := by
  induction ls generalizing m with
  | nil => rfl
  | cons l rest ih =>
    have hl : t ≠ l := fun hc => h (hc ▸ List.mem_cons_self l rest)
    have hrest : t ∉ rest := fun hc => h (List.mem_cons_of_mem l hc)
    have hcond : ¬(t.lineIndex = l.lineIndex ∧ t.charIndex = l.charIndex) := by
      rintro ⟨h1, h2⟩
      apply hl
      cases t
      cases l
      simp_all
    simp only [List.foldl_cons]
    rw [ih _ hrest, styleMapGet_setStyleAt, if_neg hcond]

theorem fold_setStyleAt_get_once (ls : List CursorLocation) (m : StyleMap)
    (st : CharStyle) (t : CursorLocation) (h : ls.count t = 1) :
    styleMapGet (ls.foldl (fun acc loc => setStyleAt acc loc st) m)
        t.lineIndex t.charIndex =
      some (mergeStyle ((styleMapGet m t.lineIndex t.charIndex).getD {}) st) := by
  induction ls generalizing m with
  | nil => simp at h
  | cons l rest ih =>
    simp only [List.foldl_cons]
    by_cases hl : l = t
    · subst hl
      have hrest : l ∉ rest := by
        rw [List.count_cons_self] at h
        intro hc
        have := List.count_pos_iff.mpr hc
        omega
      rw [fold_setStyleAt_get_not_mem rest _ st l hrest]
      rw [styleMapGet_setStyleAt, if_pos (by exact ⟨rfl, rfl⟩)]
    · have hrest : rest.count t = 1 := by
        rw [List.count_cons_of_ne (fun hc => hl hc.symm)] at h
        exact h
      have hcond : ¬(t.lineIndex = l.lineIndex ∧ t.charIndex = l.charIndex) := by
        rintro ⟨h1, h2⟩
        apply hl
        cases t
        cases l
        simp_all
      rw [ih _ hrest, styleMapGet_setStyleAt, if_neg hcond]

theorem range1_nodup (s n : Nat) : (List.range' s n).Nodup := by
  induction n generalizing s with
  | zero => simp
  | succ n ih =>
    rw [List.range'_succ]
    refine List.Nodup.cons ?_ (ih (s + 1))
    intro hmem
    rw [List.mem_range'] at hmem
    omega

theorem mem_range1 (m s n : Nat) : m ∈ List.range' s n ↔ s ≤ m ∧ m < s + n := by
  rw [List.mem_range']
  constructor
  · rintro ⟨i, hi, rfl⟩
    omega
  · intro ⟨h1, h2⟩
    exact ⟨m - s, by omega, by omega⟩

theorem foldl_map_setStyleAt (lines : List (List Char)) (P : CharStyle)
    (is : List Nat) (m : StyleMap) :
    is.foldl (fun acc i => setStyleAt acc (linearToLocation lines i) P) m =
      (is.map (linearToLocation lines)).foldl (fun acc loc => setStyleAt acc loc P) m := by
  induction is generalizing m with
  | nil => rfl
  | cons a t ih =>
    simp only [List.foldl_cons, List.map_cons]
    exact ih _

/-- On a selection inside the text, the linear offsets of the selection map to
pairwise distinct locations, so the target location is hit exactly once. -/
theorem count_loc_range_eq_one (lines : List (List Char)) (hne : lines ≠ [])
    (s n i : Nat) (hsn : s + n ≤ linearLength lines)
    (hsi : s ≤ i) (hin : i < s + n) :
    ((List.range' s n).map (linearToLocation lines)).count
      (linearToLocation lines i) = 1 := by
  apply List.count_eq_one_of_mem
  · apply List.Nodup.map_on ?_ (range1_nodup s n)
    intro x hx y hy hxy
    rw [mem_range1] at hx hy
    have rx := linear_roundtrip_of_le lines hne x (by omega)
    have ry := linear_roundtrip_of_le lines hne y (by omega)
    rw [hxy] at rx
    omega
  · exact List.mem_map_of_mem _ ((mem_range1 i s n).mpr ⟨hsi, hin⟩)

/-- C7: on a non-empty selection `[s, e)` inside the text,
`setSelectionStyles P` merges `P` field-wise onto each selected character's
existing override: fields named in `P` take `P`'s value, all other fields of
the pre-existing override are preserved — the override is never replaced
wholesale. -/
theorem C7_setSelectionStyles_partial_merge
    (lines : List (List Char)) (styles : StyleMap) (s e : Nat) (P : CharStyle)
    (hne : lines ≠ []) (hse : s < e) (heL : e ≤ linearLength lines)
    (i : Nat) (hsi : s ≤ i) (hie : i < e) :
    styleMapGet (setSelectionStyles lines styles s e P)
        (linearToLocation lines i).lineIndex (linearToLocation lines i).charIndex =
      some (mergeStyle
        ((styleMapGet styles (linearToLocation lines i).lineIndex
          (linearToLocation lines i).charIndex).getD {}) P) ∧
    (∀ f, P.named f →
      (mergeStyle
        ((styleMapGet styles (linearToLocation lines i).lineIndex
          (linearToLocation lines i).charIndex).getD {}) P).getField f = P.getField f) ∧
    (∀ f, ¬P.named f →
      (mergeStyle
        ((styleMapGet styles (linearToLocation lines i).lineIndex
          (linearToLocation lines i).charIndex).getD {}) P).getField f =
        ((styleMapGet styles (linearToLocation lines i).lineIndex
          (linearToLocation lines i).charIndex).getD {}).getField f) := by
  refine ⟨?_, ?_, ?_⟩
  · unfold setSelectionStyles
    rw [if_neg (by omega)]
    rw [foldl_map_setStyleAt]
    exact fold_setStyleAt_get_once _ _ _ _
      (count_loc_range_eq_one lines hne s (e - s) i (by omega) hsi (by omega))
  · intro f hf
    rw [mergeStyle_getField]
    unfold CharStyle.named at hf
    cases hP : P.getField f with
    | none => rw [hP] at hf; simp at hf
    | some v => rfl
  · intro f hf
    rw [mergeStyle_getField]
    unfold CharStyle.named at hf
    cases hP : P.getField f with
    | none => rfl
    | some v => rw [hP] at hf; simp at hf

/-- Style records used by concrete witnesses. -/
def redFill : CharStyle := { fill := some 1 }

/-- A partial style naming only `fontSize`. -/
def sizeOnly : CharStyle := { fontSize := some 32 }

/-- Witness for C7: a one-line document `"ab"` with a `fill` override on the
first character; `setSelectionStyles {fontSize}` on `[0, 1)` merges, keeping
the `fill`. -/
theorem C7_setSelectionStyles_partial_merge_witness :
    styleMapGet (setSelectionStyles [['a', 'b']] [(0, [(0, redFill)])] 0 1 sizeOnly)
        (linearToLocation [['a', 'b']] 0).lineIndex
        (linearToLocation [['a', 'b']] 0).charIndex =
      some (mergeStyle
        ((styleMapGet [(0, [(0, redFill)])] (linearToLocation [['a', 'b']] 0).lineIndex
          (linearToLocation [['a', 'b']] 0).charIndex).getD {}) sizeOnly) := by
  have h := C7_setSelectionStyles_partial_merge [['a', 'b']] [(0, [(0, redFill)])]
    0 1 sizeOnly (by decide) (by decide) (by decide) 0 (by decide) (by decide)
  exact h.1

/-! ### `setFullTextStyles` -/

/-- The element-property updates of `setFullTextStyles`:
`if (styleObj.f !== undefined) this.f = styleObj.f` for each of the eight
element-level style properties. -/
def updateElementStyle (el : ElementStyle) (styleObj : CharStyle) : ElementStyle where
  fontSize := styleObj.fontSize.getD el.fontSize
  fontFamily := styleObj.fontFamily.getD el.fontFamily
  fontWeight := styleObj.fontWeight.getD el.fontWeight
  fill := styleObj.fill.getD el.fill
  italic := styleObj.italic.getD el.italic
  textCase := styleObj.textCase.getD el.textCase
  textDecoration := styleObj.textDecoration.getD el.textDecoration
  letterSpacing := styleObj.letterSpacing.getD el.letterSpacing

/-- `setFullTextStyles` (element defaults + style-store effect): update the
element-level properties named in `styleObj`, then merge `styleObj` onto
every character's override (loop over all linear indices). -/
def setFullTextStyles (lines : List (List Char)) (el : ElementStyle)
    (styles : StyleMap) (graphemeCount : Nat) (styleObj : CharStyle) :
    ElementStyle × StyleMap :=
  (updateElementStyle el styleObj,
   (List.range graphemeCount).foldl
     (fun m i => setStyleAt m (linearToLocation lines i) styleObj) styles)

theorem splitNlAux_ne_nil (gs cur : List Char) :
    splitLinesByNewline.splitNlAux gs cur ≠ [] := by
  induction gs generalizing cur with
  | nil => simp [splitLinesByNewline.splitNlAux]
  | cons c rest ih =>
    unfold splitLinesByNewline.splitNlAux
    split <;> simp [ih]

theorem linearLength_splitNlAux (gs cur : List Char) :
    linearLength (splitLinesByNewline.splitNlAux gs cur) = cur.length + gs.length := by
  induction gs generalizing cur with
  | nil => simp [splitLinesByNewline.splitNlAux, linearLength]
  | cons c rest ih =>
    unfold splitLinesByNewline.splitNlAux
    by_cases hc : c = '\n'
    · rw [if_pos hc]
      rw [linearLength_cons _ _ (splitNlAux_ne_nil rest [])]
      rw [ih []]
      simp only [List.length_nil, List.length_cons]
      omega
    · rw [if_neg hc, ih (cur ++ [c])]
      simp
      omega

/-- The number of graphemes equals the total linear length of the
newline-split line array. -/
theorem linearLength_splitLinesByNewline (gs : List Char) :
    linearLength (splitLinesByNewline gs) = gs.length := by
  unfold splitLinesByNewline
  rw [linearLength_splitNlAux]
  simp

theorem locationToLinear_cons_succ (l : List Char) (rest : List (List Char))
    (li ci : Nat) :
    locationToLinear (l :: rest) (li + 1) ci =
      l.length + 1 + locationToLinear rest li ci := by
  rw [locationToLinear_eq_sumLen, locationToLinear_eq_sumLen]
  have ht : List.take (li + 1) (l :: rest) = l :: List.take li rest := rfl
  rw [ht, sumLen_cons]
  omega

theorem locationToLinear_lt_linearLength (lines : List (List Char)) (li ci : Nat)
    (hli : li < lines.length) (hci : ci < (lines.getD li []).length) :
    locationToLinear lines li ci < linearLength lines := by
  induction lines generalizing li with
  | nil => simp at hli
  | cons l rest ih =>
    cases li with
    | zero =>
      have h0 : locationToLinear (l :: rest) 0 ci = ci := by
        rw [locationToLinear_eq_sumLen]
        have : sumLen (List.take 0 (l :: rest)) = 0 := rfl
        omega
      rw [h0]
      have hl0 : (l :: rest).getD 0 [] = l := rfl
      rw [hl0] at hci
      cases rest with
      | nil =>
        have : linearLength [l] = l.length := rfl
        omega
      | cons r2 t2 =>
        rw [linearLength_cons _ _ (by simp)]
        omega
    | succ li' =>
      have hrest : rest ≠ [] := by
        intro h
        rw [h] at hli
        simp at hli
      rw [locationToLinear_cons_succ, linearLength_cons _ _ hrest]
      have hli' : li' < rest.length := by simpa using hli
      have hci' : ci < (rest.getD li' []).length := by
        have hg : (l :: rest).getD (li' + 1) [] = rest.getD li' [] := rfl
        rw [hg] at hci
        exact hci
      have := ih li' hli' hci'
      omega

theorem getD_map_if {α β : Type} (o : Option α) (d : α) (C : α → β) :
    some (C (o.getD d)) =
      if (o.map C).isSome = true then o.map C else some (C d) := by
  cases o <;> simp

/-- C8 (amended): over a line array that is the newline split of the
graphemes — the no-wrap configurations, where the loop's linear offsets
reach every character — `setFullTextStyles P` updates the element-level
defaults for exactly the element-level fields named in `P`, merges `P` onto
every character's override, and afterwards every character's resolved style
takes `P`'s value on fields named in `P` while keeping its previous resolved
value elsewhere.  Under soft wrapping the loop misses wrapped-away
characters (see the counterexample). -/
theorem C8_setFullTextStyles (gs : List Char) (el : ElementStyle)
    (styles : StyleMap) (P : CharStyle) (li ci : Nat)
    (hli : li < (splitLinesByNewline gs).length)
    (hci : ci < ((splitLinesByNewline gs).getD li []).length) :
    (∀ f, ((setFullTextStyles (splitLinesByNewline gs) el styles gs.length P).1.toStyle.getField f) =
      if isElementField f ∧ P.named f then P.getField f else el.toStyle.getField f) ∧
    styleMapGet (setFullTextStyles (splitLinesByNewline gs) el styles gs.length P).2 li ci =
      some (mergeStyle ((styleMapGet styles li ci).getD {}) P) ∧
    (∀ f, (getCharStyle (setFullTextStyles (splitLinesByNewline gs) el styles gs.length P).1
        (styleMapGet (setFullTextStyles (splitLinesByNewline gs) el styles gs.length P).2 li ci)).getField f =
      if P.named f then P.getField f
      else (getCharStyle el (styleMapGet styles li ci)).getField f) := by
  have hne : splitLinesByNewline gs ≠ [] := splitLinesByNewline_ne_nil gs
  have hL : linearLength (splitLinesByNewline gs) = gs.length :=
    linearLength_splitLinesByNewline gs
  have hdef : ∀ f, ((setFullTextStyles (splitLinesByNewline gs) el styles gs.length P).1.toStyle.getField f) =
      if isElementField f ∧ P.named f then P.getField f else el.toStyle.getField f := by
    intro f
    show ((updateElementStyle el P).toStyle.getField f) = _
    cases f <;>
      simp only [updateElementStyle, ElementStyle.toStyle, CharStyle.getField,
        isElementField, CharStyle.named, true_and, false_and, if_false] <;>
      first
        | rfl
        | exact getD_map_if _ _ _
  have hget : styleMapGet (setFullTextStyles (splitLinesByNewline gs) el styles gs.length P).2 li ci =
      some (mergeStyle ((styleMapGet styles li ci).getD {}) P) := by
    have hloc : linearToLocation (splitLinesByNewline gs)
        (locationToLinear (splitLinesByNewline gs) li ci) = ⟨li, ci⟩ :=
      linearToLocation_locationToLinear _ li ci hli (Nat.le_of_lt hci)
    have hlt : locationToLinear (splitLinesByNewline gs) li ci < gs.length := by
      rw [← hL]
      exact locationToLinear_lt_linearLength _ li ci hli hci
    show styleMapGet ((List.range gs.length).foldl
        (fun m i => setStyleAt m (linearToLocation (splitLinesByNewline gs) i) P) styles) li ci = _
    rw [List.range_eq_range', foldl_map_setStyleAt]
    have hcount := count_loc_range_eq_one (splitLinesByNewline gs) hne 0 gs.length
      (locationToLinear (splitLinesByNewline gs) li ci) (by omega) (by omega) (by omega)
    have := fold_setStyleAt_get_once
      ((List.range' 0 gs.length).map (linearToLocation (splitLinesByNewline gs)))
      styles P (linearToLocation (splitLinesByNewline gs)
        (locationToLinear (splitLinesByNewline gs) li ci)) (by rw [hloc] at hcount ⊢; exact hcount)
    rw [hloc] at this
    exact this
  refine ⟨hdef, hget, ?_⟩
  intro f
  rw [hget]
  unfold getCharStyle
  rw [mergeStyle_getField]
  simp only [Option.getD_some]
  rw [mergeStyle_getField]
  cases hP : P.getField f with
  | some v =>
    have hnamed : P.named f := by unfold CharStyle.named; rw [hP]; rfl
    rw [if_pos hnamed]
    rfl
  | none =>
    have hnamed : ¬P.named f := by unfold CharStyle.named; rw [hP]; simp
    rw [if_neg hnamed]
    rw [mergeStyle_getField]
    have hdf := hdef f
    have hdf' : (updateElementStyle el P).toStyle.getField f = el.toStyle.getField f := by
      have : ¬(isElementField f ∧ P.named f) := fun hc => hnamed hc.2
      rw [if_neg this] at hdf
      exact hdf
    cases ho : ((styleMapGet styles li ci).getD {}).getField f with
    | some w => simp only [Option.orElse]
    | none =>
      simp only [Option.orElse]
      exact hdf'

/-- Concrete element defaults used by witnesses. -/
def elDefault : ElementStyle :=
  ⟨0, 16, 0, 0, false, 0, 0, NumOrUnit.num 0⟩

/-- A store with three differently-colored characters on one line. -/
def threeColors : StyleMap :=
  [(0, [(0, { fill := some 1 }), (1, { fill := some 2 }), (2, { fill := some 3 })])]

/-- A partial style naming only `fontWeight`. -/
def boldOnly : CharStyle := { fontWeight := some 7 }

/-- Witness for C8: `setFullTextStyles {fontWeight}` on `"abc"` with three
distinct per-character fills merges onto the first character's override. -/
theorem C8_setFullTextStyles_witness :
    styleMapGet (setFullTextStyles (splitLinesByNewline ['a', 'b', 'c'])
        elDefault threeColors (['a', 'b', 'c'] : List Char).length boldOnly).2 0 0 =
      some (mergeStyle ((styleMapGet threeColors 0 0).getD {}) boldOnly) := by
  have h := C8_setFullTextStyles ['a', 'b', 'c'] elDefault threeColors boldOnly 0 0
    (by decide) (by decide)
  exact h.2.1

/-! ### Editing lifecycle and the `EditingManager` singleton -/

/-- The editing-relevant state of one `RichText` instance. -/
structure EditorState where
  isEditing : Bool
  editable : Bool
  selectionStart : Nat
  selectionEnd : Nat
deriving DecidableEq, Repr

/-- The system of all instances (indexed by `Nat`) together with the
`EditingManager` singleton's `activeEditor` slot. -/
structure SysState where
  editors : Nat → EditorState
  activeEditor : Option Nat

/-- `EditingManager.clearActive(editor)`: clear the slot only when it holds
this editor. -/
def clearActive (active : Option Nat) (i : Nat) : Option Nat :=
  if active = some i then none else active

/-- `exitEditing`: early-return when not editing; otherwise clear the editing
flag, collapse the selection to offset 0, and clear the manager slot. -/
def exitEditing (s : SysState) (i : Nat) : SysState :=
  if (s.editors i).isEditing = false then s
  else
    { editors := Function.update s.editors i
        { s.editors i with isEditing := false, selectionStart := 0, selectionEnd := 0 },
      activeEditor := clearActive s.activeEditor i }

/-- `EditingManager.requestEditing(editor)`: force any *other* active
instance to exit, then record the new active editor. -/
def requestEditing (s : SysState) (i : Nat) : SysState :=
  let s1 := match s.activeEditor with
    | some j => if j ≠ i then exitEditing s j else s
    | none => s
  { s1 with activeEditor := some i }

/-- `enterEditing`: early-return when already editing or not editable;
otherwise notify the manager (which may exit another instance), set the
editing flag, and optionally place the caret (clamped to the text length). -/
def enterEditing (s : SysState) (i : Nat) (cursorPosition : Option Nat)
    (graphemeCount : Nat) : SysState :=
  if (s.editors i).isEditing || !(s.editors i).editable then s
  else
    let s1 := requestEditing s i
    let e2 := { s1.editors i with isEditing := true }
    let e3 := match cursorPosition with
      | some p =>
        { e2 with selectionStart := min p graphemeCount,
                  selectionEnd := min p graphemeCount }
      | none => e2
    { s1 with editors := Function.update s1.editors i e3 }

/-- One step of the editing lifecycle. -/
inductive EditStep : SysState → SysState → Prop where
  | enter (s : SysState) (i : Nat) (cp : Option Nat) (g : Nat) :
      EditStep s (enterEditing s i cp g)
  | leave (s : SysState) (i : Nat) : EditStep s (exitEditing s i)

/-- The inductive invariant: any editing instance is the manager's active
editor. -/
def SysInv (s : SysState) : Prop :=
  ∀ i, (s.editors i).isEditing = true → s.activeEditor = some i

theorem exitEditing_preserves (s : SysState) (i : Nat) (hinv : SysInv s) :
    SysInv (exitEditing s i) := by
  unfold exitEditing
  split
  · exact hinv
  · rename_i hed
    rw [Bool.not_eq_false] at hed
    intro k hk
    simp only at hk
    by_cases hki : k = i
    · subst hki
      rw [Function.update_same] at hk
      simp at hk
    · rw [Function.update_noteq hki] at hk
      have := hinv k hk
      have hi := hinv i hed
      rw [this] at hi
      injection hi with h
      omega

theorem requestEditing_no_editing (s : SysState) (i : Nat) (hinv : SysInv s)
    (hi : (s.editors i).isEditing = false) :
    (∀ k, ((requestEditing s i).editors k).isEditing = false) ∧
    (requestEditing s i).activeEditor = some i := by
  unfold requestEditing
  refine ⟨?_, rfl⟩
  intro k
  rcases ha : s.activeEditor with _ | j
  · simp only [ha]
    by_contra hk
    rw [Bool.not_eq_false] at hk
    have := hinv k hk
    rw [ha] at this
    exact Option.noConfusion this
  · simp only [ha]
    by_cases hji : j ≠ i
    · rw [if_pos hji]
      unfold exitEditing
      split
      · rename_i hj
        by_contra hk
        rw [Bool.not_eq_false] at hk
        have := hinv k hk
        rw [ha] at this
        injection this with h
        subst h
        rw [hj] at hk
        exact Bool.noConfusion hk
      · rename_i hj
        rw [Bool.not_eq_false] at hj
        simp only
        by_cases hkj : k = j
        · subst hkj
          rw [Function.update_same]
        · rw [Function.update_noteq hkj]
          by_contra hk
          rw [Bool.not_eq_false] at hk
          have := hinv k hk
          rw [ha] at this
          injection this with h
          omega
    · rw [if_neg hji]
      rw [not_not] at hji
      subst hji
      by_contra hk
      rw [Bool.not_eq_false] at hk
      have := hinv k hk
      rw [ha] at this
      injection this with h
      subst h
      rw [hi] at hk
      exact Bool.noConfusion hk

theorem enterEditing_preserves (s : SysState) (i : Nat) (cp : Option Nat)
    (g : Nat) (hinv : SysInv s) : SysInv (enterEditing s i cp g) := by
  unfold enterEditing
  split
  · exact hinv
  · rename_i hguard
    rw [Bool.or_eq_true, not_or] at hguard
    have hi : (s.editors i).isEditing = false := by
      rcases hguard with ⟨h1, _⟩
      exact Bool.not_eq_true _ ▸ (by simpa using h1)
    obtain ⟨hnoed, hact⟩ := requestEditing_no_editing s i hinv hi
    intro k hk
    simp only at hk ⊢
    by_cases hki : k = i
    · subst hki
      exact hact
    · rw [Function.update_noteq hki] at hk
      rw [hnoed k] at hk
      exact Bool.noConfusion hk

theorem editStep_preserves (s t : SysState) (h : EditStep s t) (hinv : SysInv s) :
    SysInv t := by
  cases h with
  | enter i cp g => exact enterEditing_preserves s i cp g hinv
  | leave i => exact exitEditing_preserves s i hinv

/-- C9: starting from a system where no instance is editing, after any
sequence of `enterEditing` / `exitEditing` steps at most one instance has
`isEditing = true`. -/
theorem C9_at_most_one_editing (s0 s : SysState)
    (h0 : ∀ i, (s0.editors i).isEditing = false)
    (hreach : Relation.ReflTransGen EditStep s0 s) :
    ∀ i j, (s.editors i).isEditing = true → (s.editors j).isEditing = true → i = j := by
  have hinv : SysInv s := by
    induction hreach with
    | refl =>
      intro i hi
      rw [h0 i] at hi
      exact Bool.noConfusion hi
    | tail hab hbc ih =>
      exact editStep_preserves _ _ hbc ih
  intro i j hi hj
  have h1 := hinv i hi
  have h2 := hinv j hj
  rw [h1] at h2
  injection h2

/-- An all-idle two-instance-style initial system. -/
def sysInit : SysState := ⟨fun _ => ⟨false, true, 0, 0⟩, none⟩

/-- The system after instance 0 enters editing. -/
def sysAfter : SysState := enterEditing sysInit 0 none 0

/-- Witness for C9: from the all-idle system, after instance 0 enters
editing, any two editing instances coincide (checked at indices 0, 0). -/
theorem C9_at_most_one_editing_witness :
    (sysAfter.editors 0).isEditing = true ∧ (0 : Nat) = 0 := by
  refine ⟨by rfl, ?_⟩
  exact C9_at_most_one_editing sysInit sysAfter (fun _ => rfl)
    (Relation.ReflTransGen.single (EditStep.enter sysInit 0 none 0))
    0 0 (by rfl) (by rfl)

/-- C10: `exitEditing` on an editing instance collapses the selection to a
caret at offset 0 and clears the editing flag; on a non-editing instance it
changes nothing at all. -/
theorem C10_exitEditing_collapses (s : SysState) (i : Nat) :
    ((s.editors i).isEditing = true →
      ((exitEditing s i).editors i).selectionStart = 0 ∧
      ((exitEditing s i).editors i).selectionEnd = 0 ∧
      ((exitEditing s i).editors i).isEditing = false) ∧
    ((s.editors i).isEditing = false → exitEditing s i = s) := by
  constructor
  · intro hed
    unfold exitEditing
    rw [if_neg (by simp [hed])]
    simp [Function.update_same]
  · intro hed
    unfold exitEditing
    rw [if_pos hed]

/-- Witness for C10 on a concrete editing instance with selection `[2, 5)`
and on a concrete idle instance. -/
theorem C10_exitEditing_collapses_witness :
    (((exitEditing ⟨fun _ => ⟨true, true, 2, 5⟩, some 0⟩ 0).editors 0).selectionStart = 0 ∧
     ((exitEditing ⟨fun _ => ⟨true, true, 2, 5⟩, some 0⟩ 0).editors 0).selectionEnd = 0 ∧
     ((exitEditing ⟨fun _ => ⟨true, true, 2, 5⟩, some 0⟩ 0).editors 0).isEditing = false) ∧
    exitEditing sysInit 0 = sysInit := by
  constructor
  · exact (C10_exitEditing_collapses ⟨fun _ => ⟨true, true, 2, 5⟩, some 0⟩ 0).1 rfl
  · exact (C10_exitEditing_collapses sysInit 0).2 rfl

/-! ### Text alignment and justify distribution -/

/-- `ITextAlign` values used by the alignment code. -/
inductive TextAlign where
  | left | center | right | justify | justifyLetter | both | bothLetter
deriving DecidableEq, Repr

/-- `ICharMetrics`: a laid-out character (its `y`-independent fields). -/
structure CharMetrics where
  char : Char
  x : ℚ
  width : ℚ
  style : CharStyle
deriving DecidableEq, Repr

/-- `ILineMetrics` (the character list; `y`/`height` play no role in
horizontal alignment). -/
structure LineMetrics where
  chars : List CharMetrics
deriving DecidableEq, Repr

/-- Parsed padding record. -/
structure Padding where
  top : ℚ
  right : ℚ
  bottom : ℚ
  left : ℚ
deriving DecidableEq, Repr

/-- `padding` input: a number or an array of numbers. -/
inductive PaddingInput where
  | num (p : ℚ)
  | arr (l : List ℚ)
deriving DecidableEq, Repr

/-- `_parsePadding`.  (The JS falsy check `if (!padding)` on the number `0`
yields the same all-zero record as the uniform branch.) -/
def parsePadding : Option PaddingInput → Padding
  | none => ⟨0, 0, 0, 0⟩
  | some (.num p) => ⟨p, p, p, p⟩
  | some (.arr l) =>
    if l.length = 1 then ⟨l.getD 0 0, l.getD 0 0, l.getD 0 0, l.getD 0 0⟩
    else if l.length = 2 then ⟨l.getD 0 0, l.getD 1 0, l.getD 0 0, l.getD 1 0⟩
    else if l.length = 3 then ⟨l.getD 0 0, l.getD 1 0, l.getD 2 0, l.getD 1 0⟩
    else ⟨l.getD 0 0, l.getD 1 0, l.getD 2 0, l.getD 3 0⟩

/-- `_parseLetterSpacing`.  (The JS falsy check `if (!letterSpacing)` on the
number `0` returns `0`, which equals the plain-number branch's result.) -/
def parseLetterSpacing : Option NumOrUnit → ℚ → ℚ
  | none, _ => 0
  | some (.num x), _ => x
  | some (.percent v), fontSize => fontSize * v
  | some (.px v), _ => v

/-- The element-level configuration consulted by the alignment code. -/
structure AlignConfig where
  textAlign : TextAlign
  padding : Option PaddingInput
  autoWidth : Bool
  width : ℚ
deriving DecidableEq, Repr

/-- The line's actual width: `lastChar.x + lastChar.width` plus the last
character's letter spacing. -/
def lineWidthOf (line : LineMetrics) : ℚ :=
  match line.chars.getLast? with
  | none => 0
  | some lastChar =>
    lastChar.x + lastChar.width +
      parseLetterSpacing lastChar.style.letterSpacing (lastChar.style.fontSize.getD 0)

/-- The leftover width (`gap`) of a line:
container width (`Math.abs(width) || lineWidth`, minus horizontal padding;
or the line width itself under `autoWidth`) minus the line width. -/
def alignGap (cfg : AlignConfig) (line : LineMetrics) : ℚ :=
  let lineWidth := lineWidthOf line
  let padding := parsePadding cfg.padding
  let containerWidth :=
    if cfg.autoWidth then lineWidth
    else (if |cfg.width| = 0 then lineWidth else |cfg.width|) - padding.left - padding.right
  containerWidth - lineWidth

/-- `_getAlignOffsetAndSpacing`: alignment offset and extra inter-character
spacing for one line (`numLines` is `this._lines.length`). -/
def getAlignOffsetAndSpacing (cfg : AlignConfig) (numLines : Nat)
    (line : LineMetrics) (lineIdx : Nat) : ℚ × ℚ :=
  if line.chars = [] then (0, 0)
  else
    let gap := alignGap cfg line
    match cfg.textAlign with
    | .center => (gap / 2, 0)
    | .right => (gap, 0)
    | .justify | .justifyLetter =>
      if lineIdx < numLines - 1 ∧ 1 < line.chars.length ∧ 0 < gap then
        (0, gap / ((line.chars.length : ℚ) - 1))
      else (0, 0)
    | .both | .bothLetter =>
      if 1 < line.chars.length ∧ 0 < gap then
        (0, gap / ((line.chars.length : ℚ) - 1))
      else (0, 0)
    | _ => (0, 0)

/-- The per-line x-adjustment loop of `_applyTextAlignToMetrics`:
`chars[i].x += alignOffset + cumulativeSpacing; cumulativeSpacing += extraSpacing`. -/
def applyAlignGo (alignOffset extraSpacing : ℚ) :
    List CharMetrics → ℚ → List CharMetrics
  | [], _ => []
  | c :: rest, cumulativeSpacing =>
    { c with x := c.x + (alignOffset + cumulativeSpacing) } ::
      applyAlignGo alignOffset extraSpacing rest (cumulativeSpacing + extraSpacing)

/-- `_applyTextAlignToMetrics`: early-return when the container width is
unset or non-positive; otherwise adjust each line's character positions by
its alignment offset and cumulative justify spacing. -/
def applyTextAlignToMetrics (cfg : AlignConfig) (lineMetrics : List LineMetrics) :
    List LineMetrics :=
  let padding := parsePadding cfg.padding
  let containerWidth :=
    if cfg.autoWidth then 0 else (if cfg.width = 0 then 0 else cfg.width) - padding.left - padding.right
  if containerWidth = 0 ∨ containerWidth ≤ 0 then lineMetrics
  else
    lineMetrics.enum.map fun p =>
      let lineIdx := p.1
      let line := p.2
      if line.chars = [] then line
      else
        let off := getAlignOffsetAndSpacing cfg lineMetrics.length line lineIdx
        if off.1 ≠ 0 ∨ off.2 ≠ 0 then
          { line with chars := applyAlignGo off.1 off.2 line.chars 0 }
        else line

theorem applyAlignGo_getD (a e : ℚ) (chars : List CharMetrics) (cum : ℚ)
    (k : Nat) (hk : k < chars.length) (d : CharMetrics) :
    ((applyAlignGo a e chars cum).getD k d).x =
      (chars.getD k d).x + a + cum + (k : ℚ) * e := by
  induction chars generalizing cum k with
  | nil => simp at hk
  | cons c rest ih =>
    cases k with
    | zero =>
      simp only [applyAlignGo, List.getD_cons_zero]
      ring
    | succ k' =>
      simp only [applyAlignGo, List.getD_cons_succ]
      rw [ih (cum + e) k' (by simpa using hk)]
      push_cast
      ring

/-- A fixed-width justify configuration (width 100, no padding). -/
def justifyCfg : AlignConfig := ⟨TextAlign.justify, none, false, 100⟩

/-- A laid-out two-character line `"ab"` of content width 20. -/
def line0 : LineMetrics :=
  ⟨[⟨'a', 0, 10, { fontSize := some 16 }⟩, ⟨'b', 10, 10, { fontSize := some 16 }⟩]⟩

/-- Counterexample for C2 as stated: with wrapping disabled the line array is
exactly the newline-split paragraph list, so line 0 of `"ab\ncd"` is the last
(and only) line of its paragraph — yet, being above the document's last line
(`lineIdx < _lines.length - 1`), it receives a nonzero justify spacing of 80.
The code keys the exception on the document's last line, not on paragraph
structure. -/
theorem C2_counterexample_last_paragraph_line_justified :
    splitLinesByNewline ['a', 'b', '\n', 'c', 'd'] = [['a', 'b'], ['c', 'd']] ∧
    (getAlignOffsetAndSpacing justifyCfg 2 line0 0).2 = 80 ∧
    (getAlignOffsetAndSpacing justifyCfg 2 line0 0).2 ≠ 0 := by
  have h2 : (getAlignOffsetAndSpacing justifyCfg 2 line0 0).2 = 80 := by
    unfold getAlignOffsetAndSpacing
    rw [if_neg (by decide)]
    norm_num [justifyCfg, line0, alignGap, lineWidthOf, parsePadding, parseLetterSpacing]
  refine ⟨by decide, h2, by rw [h2]; norm_num⟩

/-- C2 (amended): under `justify` / `justify-letter`, every line strictly
above the *document's* last line with more than one character and positive
leftover receives spacing `gap / (charCount - 1)`, applied cumulatively
(`k * spacing` to character `k`); the document's last line receives none. -/
theorem C2_justify_distribution (cfg : AlignConfig) (numLines : Nat)
    (line : LineMetrics) (lineIdx : Nat)
    (hj : cfg.textAlign = TextAlign.justify ∨ cfg.textAlign = TextAlign.justifyLetter) :
    (lineIdx < numLines - 1 → 1 < line.chars.length → 0 < alignGap cfg line →
      getAlignOffsetAndSpacing cfg numLines line lineIdx =
        (0, alignGap cfg line / ((line.chars.length : ℚ) - 1)) ∧
      (∀ k, k < line.chars.length → ∀ d,
        ((applyAlignGo 0 (alignGap cfg line / ((line.chars.length : ℚ) - 1))
            line.chars 0).getD k d).x =
          (line.chars.getD k d).x +
            (k : ℚ) * (alignGap cfg line / ((line.chars.length : ℚ) - 1)))) ∧
    (lineIdx = numLines - 1 →
      getAlignOffsetAndSpacing cfg numLines line lineIdx = (0, 0)) := by
  constructor
  · intro hlt hchars hgap
    have hne : line.chars ≠ [] := by
      intro h
      rw [h] at hchars
      simp at hchars
    constructor
    · unfold getAlignOffsetAndSpacing
      rw [if_neg hne]
      rcases hj with hj | hj <;> rw [hj] <;>
        simp only [] <;> rw [if_pos ⟨hlt, hchars, hgap⟩]
    · intro k hk d
      rw [applyAlignGo_getD _ _ _ _ k hk d]
      ring
  · intro heq
    by_cases hne : line.chars = []
    · unfold getAlignOffsetAndSpacing
      rw [if_pos hne]
    · unfold getAlignOffsetAndSpacing
      rw [if_neg hne]
      have hnlt : ¬(lineIdx < numLines - 1 ∧ 1 < line.chars.length ∧
          0 < alignGap cfg line) := by
        rintro ⟨h1, _, _⟩
        omega
      rcases hj with hj | hj <;> rw [hj] <;>
        simp only [] <;> rw [if_neg hnlt]

/-- Witness for the amended C2 at the concrete justified line `"ab"` in a
two-line document: spacing is `80 = (100 - 20) / (2 - 1)` and character 1
moves from `x = 10` to `x = 90`. -/
theorem C2_justify_distribution_witness :
    getAlignOffsetAndSpacing justifyCfg 2 line0 0 =
      (0, alignGap justifyCfg line0 / ((line0.chars.length : ℚ) - 1)) ∧
    ((applyAlignGo 0 (alignGap justifyCfg line0 / ((line0.chars.length : ℚ) - 1))
        line0.chars 0).getD 1 ⟨'a', 0, 0, {}⟩).x = 90 := by
  have hgap : alignGap justifyCfg line0 = 80 := by
    norm_num [justifyCfg, line0, alignGap, lineWidthOf, parsePadding, parseLetterSpacing]
  have h := (C2_justify_distribution justifyCfg 2 line0 0 (Or.inl rfl)).1
    (by decide) (by decide) (by rw [hgap]; norm_num)
  refine ⟨h.1, ?_⟩
  rw [h.2 1 (by decide) ⟨'a', 0, 0, {}⟩, hgap]
  norm_num [line0]

/-! ### Diff-based edit pipeline: style migration -/

/-- The common-prefix loop of `_onInput`. -/
def commonPrefixLen : List Char → List Char → Nat
  | a :: as, b :: bs => if a = b then 1 + commonPrefixLen as bs else 0
  | _, _ => 0

/-- The common-suffix loop of `_onInput`: matching characters from the end,
bounded so prefix and suffix never overlap on either text. -/
def commonSuffixLen (oldG newG : List Char) (pref : Nat) : Nat :=
  min (commonPrefixLen oldG.reverse newG.reverse)
    (min (oldG.length - pref) (newG.length - pref))

/-- Step 1 of `_shiftStylesBeforeTextChange` (also `_convertStylesToLinear`):
collect the 2D store into a linear-offset `Map` (`{...style}` copies are
value copies). -/
def collectLinearStyles {α : Type} (lines : List (List Char)) (styles : Store α) :
    List (Nat × α) :=
  styles.foldl (fun acc p =>
    p.2.foldl (fun acc2 q =>
      jsSet acc2 (locationToLinear lines p.1 q.1) q.2) acc) []

/-- Steps 2–3 of `_shiftStylesBeforeTextChange`: drop overrides inside the
removed region, shift the ones at/after it by `insertedCount - removedCount`,
then give the inserted offsets a copy of the reference style;
the reference index is `start - 1`, or (inserting at 0) `start + removedCount`
guarded by `start + removedCount < oldLinearStyles.size` — note the guard
compares the index against the `Map`'s *entry count*. -/
def shiftStylesCore (start removedCount insertedCount : Nat)
    (oldLinearStyles : List (Nat × CharStyle)) : List (Nat × CharStyle) :=
  let newLinearStyles := oldLinearStyles.foldl (fun acc p =>
    if p.1 < start then jsSet acc p.1 p.2
    else if start + removedCount ≤ p.1 then
      jsSet acc (p.1 + insertedCount - removedCount) p.2
    else acc) []
  if 0 < insertedCount then
    let refStyle : Option CharStyle :=
      if 0 < start then jsGet oldLinearStyles (start - 1)
      else if start + removedCount < oldLinearStyles.length then
        jsGet oldLinearStyles (start + removedCount)
      else none
    match refStyle with
    | some rs =>
      (List.range insertedCount).foldl (fun acc i => jsSet acc (start + i) rs)
        newLinearStyles
    | none => newLinearStyles
  else newLinearStyles

/-- `_shiftStylesBeforeTextChange`: early-return (no pending styles) when
nothing changed, else the shifted linear style map. -/
def shiftStylesBeforeTextChange (lines : List (List Char)) (styles : StyleMap)
    (start removedCount insertedCount : Nat) : Option (List (Nat × CharStyle)) :=
  if removedCount = 0 ∧ insertedCount = 0 then none
  else some (shiftStylesCore start removedCount insertedCount
    (collectLinearStyles lines styles))

/-- The old text `"abcd"` of the C3 failing input. -/
def oldText3 : List Char := ['a', 'b', 'c', 'd']

/-- A store with a `fill` override only at linear offset 2 (`'c'`). -/
def styles3 : StyleMap := [(0, [(2, redFill)])]

/-- C3 failing input: editing `"abcd"` to `"xcd"` gives `start = 0`,
`removedCount = 2`, `insertedCount = 1`.  The first surviving character
after the insertion is old offset `2`, which carries the red override — but
the code's reference guard compares that index with the override *count*
(`oldLinearStyles.size = 1`), fails, and the inserted character at offset 0
inherits nothing; the surviving override still shifts to offset 1. -/
theorem C3_insert_at_zero_inherit_guard_bug :
    commonPrefixLen oldText3 ['x', 'c', 'd'] = 0 ∧
    commonSuffixLen oldText3 ['x', 'c', 'd'] 0 = 2 ∧
    jsGet (collectLinearStyles (splitLinesByNewline oldText3) styles3) 2 = some redFill ∧
    jsGet (shiftStylesCore 0 2 1
      (collectLinearStyles (splitLinesByNewline oldText3) styles3)) 0 = none ∧
    jsGet (shiftStylesCore 0 2 1
      (collectLinearStyles (splitLinesByNewline oldText3) styles3)) 1 = some redFill := by
  decide

/-! ### Undo/redo snapshots under JS reference semantics -/

/-- A snapshot pushed by `_recordSnapshot`: text, the *outer* styles map
(line index → inner-map object), and the selection.  The inner maps are
shared by reference. -/
structure Snapshot where
  text : List Char
  styles : List (Nat × Nat)
  selection : Nat × Nat
deriving DecidableEq, Repr

/-- A `RichText` instance with the JS heap of inner style `Map` objects made
explicit: `heap` maps each allocated inner map (by address) to its contents,
and the outer `_styles` map stores addresses.  `new Map(this._styles)`
copies the outer list of (line, address) pairs but shares the inner
objects. -/
structure RTState where
  text : List Char
  heap : List (List (Nat × CharStyle))
  styles : List (Nat × Nat)
  undoStack : List Snapshot
  redoStack : List Snapshot
  selectionStart : Nat
  selectionEnd : Nat
deriving DecidableEq, Repr

/-- Dereference an inner map object. -/
def heapGet (heap : List (List (Nat × CharStyle))) (addr : Nat) :
    List (Nat × CharStyle) :=
  heap.getD addr []

/-- The override of a (line, column) position, through the heap. -/
def rtStyleAt (s : RTState) (li ci : Nat) : Option CharStyle :=
  (jsGet s.styles li).bind fun addr => jsGet (heapGet s.heap addr) ci

/-- The line array of the instance. -/
def rtLines (s : RTState) : List (List Char) := splitLinesByNewline s.text

/-- `_recordSnapshot`: push `{text, styles: new Map(this._styles),
selection}` (shallow copy: same inner-map addresses) and clear the redo
stack. -/
def recordSnapshot (s : RTState) : RTState :=
  { s with
    undoStack := ⟨s.text, s.styles, (s.selectionStart, s.selectionEnd)⟩ :: s.undoStack,
    redoStack := [] }

/-- One iteration of the `setSelectionStyles` loop under reference
semantics: mutate the line's inner map object in place (allocating a fresh
one when absent). -/
def rtSetStyleAt (s : RTState) (loc : CursorLocation) (style : CharStyle) : RTState :=
  match jsGet s.styles loc.lineIndex with
  | some addr =>
    let lineStyles := heapGet s.heap addr
    let existing := (jsGet lineStyles loc.charIndex).getD {}
    let newInner := jsSet lineStyles loc.charIndex (mergeStyle existing style)
    { s with heap := s.heap.set addr newInner }
  | none =>
    let addr := s.heap.length
    let s1 := { s with heap := s.heap ++ [[]],
                       styles := jsSet s.styles loc.lineIndex addr }
    let lineStyles := heapGet s1.heap addr
    let existing := (jsGet lineStyles loc.charIndex).getD {}
    let newInner := jsSet lineStyles loc.charIndex (mergeStyle existing style)
    { s1 with heap := s1.heap.set addr newInner }

/-- `setSelectionStyles` under reference semantics: record a snapshot, then
merge the style into each selected character's line map in place. -/
def rtSetSelectionStyles (s : RTState) (style : CharStyle) : RTState :=
  if s.selectionStart = s.selectionEnd then s
  else
    let s1 := recordSnapshot s
    (List.range' s1.selectionStart (s1.selectionEnd - s1.selectionStart)).foldl
      (fun acc i => rtSetStyleAt acc (linearToLocation (rtLines acc) i) style) s1

/-- `undo`: push the current state onto the redo stack (again a shallow
outer-map copy), pop and restore the last snapshot. -/
def rtUndo (s : RTState) : RTState :=
  match s.undoStack with
  | [] => s
  | snap :: rest =>
    { s with
      redoStack := ⟨s.text, s.styles, (s.selectionStart, s.selectionEnd)⟩ :: s.redoStack,
      undoStack := rest,
      text := snap.text,
      styles := snap.styles,
      selectionStart := snap.selection.1,
      selectionEnd := snap.selection.2 }

/-- `redo`: the mirror image of `undo`. -/
def rtRedo (s : RTState) : RTState :=
  match s.redoStack with
  | [] => s
  | snap :: rest =>
    { s with
      undoStack := ⟨s.text, s.styles, (s.selectionStart, s.selectionEnd)⟩ :: s.undoStack,
      redoStack := rest,
      text := snap.text,
      styles := snap.styles,
      selectionStart := snap.selection.1,
      selectionEnd := snap.selection.2 }

/-- A blue fill override. -/
def blueFill : CharStyle := { fill := some 2 }

/-- Initial C1 state: text `"ab"`, a red override on character (0,0) stored
in the inner map at heap address 0, selection `[0,1)`. -/
def c1Init : RTState :=
  { text := ['a', 'b'], heap := [[(0, redFill)]], styles := [(0, 0)],
    undoStack := [], redoStack := [], selectionStart := 0, selectionEnd := 1 }

/-- C1 failing input: `_recordSnapshot`'s `new Map(this._styles)` is a
shallow copy, so the in-place `lineStyles.set(...)` of `setSelectionStyles`
also rewrites the already-pushed snapshot; `undo()` then fails to restore
the red fill — the resolved override is still the blue merge. -/
theorem C1_shallow_snapshot_corrupts_undo :
    rtStyleAt c1Init 0 0 = some redFill ∧
    rtStyleAt (rtUndo (rtSetSelectionStyles c1Init blueFill)) 0 0 =
      some (mergeStyle redFill blueFill) ∧
    rtStyleAt (rtUndo (rtSetSelectionStyles c1Init blueFill)) 0 0 ≠ some redFill := by
  decide

/-! ### The style-range codec -/

/-- `IStyleRange` (`end` is a Lean keyword, so the field is `stop`). -/
structure StyleRange (α : Type) where
  start : Nat
  stop : Nat
  style : α
deriving DecidableEq, Repr

/-- `Array.from(keys()).sort((a, b) => a - b)`. -/
def sortIndices (l : List Nat) : List Nat := l.insertionSort (· ≤ ·)

/-- The run-merging loop of `_compressToStyleRanges`: extend the current
range while the next index is adjacent and carries the same style (the
source compares styles with `JSON.stringify` equality, modelled as record
equality), else emit the current range and start a new one; the final range
is always emitted. -/
def compressGo {α : Type} [DecidableEq α] [Inhabited α] (linear : List (Nat × α)) :
    List Nat → Nat → α → Nat → List (StyleRange α)
  | [], currentStart, currentStyle, lastIndex =>
    [⟨currentStart, lastIndex + 1, currentStyle⟩]
  | index :: rest, currentStart, currentStyle, lastIndex =>
    let style := (jsGet linear index).getD default
    if index = lastIndex + 1 ∧ style = currentStyle then
      compressGo linear rest currentStart currentStyle index
    else
      ⟨currentStart, lastIndex + 1, currentStyle⟩ ::
        compressGo linear rest index style index

/-- `_compressToStyleRanges`: collect the store into linear offsets, sort
the indices, and merge adjacent equal-style runs into ranges. -/
def compressToStyleRanges {α : Type} [DecidableEq α] [Inhabited α]
    (lines : List (List Char)) (styles : Store α) : List (StyleRange α) :=
  let linearStyles := collectLinearStyles lines styles
  if linearStyles = [] then []
  else
    match sortIndices (linearStyles.map Prod.fst) with
    | [] => []
    | i0 :: rest =>
      compressGo linearStyles rest i0 ((jsGet linearStyles i0).getD default) i0

/-- The store write of `_loadFromStyleRanges`: ensure the line's inner map
and overwrite the character's override. -/
def styleMapSet {α : Type} (m : Store α) (li ci : Nat) (st : α) : Store α :=
  let m1 := if (jsGet m li).isSome then m else jsSet m li []
  let inner := (jsGet m1 li).getD []
  jsSet m1 li (jsSet inner ci st)

/-- `_loadFromStyleRanges`: clear the store and expand each range into
per-character overrides, bounded by the grapheme count
(`i < end && i < graphemes.length`). -/
def loadFromStyleRanges {α : Type} (lines : List (List Char)) (graphemeCount : Nat)
    (ranges : List (StyleRange α)) : Store α :=
  ranges.foldl (fun m r =>
    (List.range' r.start (min r.stop graphemeCount - r.start)).foldl (fun m2 i =>
      styleMapSet m2 (linearToLocation lines i).lineIndex
        (linearToLocation lines i).charIndex r.style) m) []

/-- The style that the range list assigns to a linear offset: the first
range containing it (ranges produced by the codec are disjoint). -/
def rangesAt {α : Type} : List (StyleRange α) → Nat → Option α
  | [], _ => none
  | r :: rs, i => if r.start ≤ i ∧ i < r.stop then some r.style else rangesAt rs i

theorem styleMapGet_styleMapSet {α : Type} (m : Store α) (li ci : Nat) (st : α)
    (lj cj : Nat) :
    styleMapGet (styleMapSet m li ci st) lj cj =
      if lj = li ∧ cj = ci then some st else styleMapGet m lj cj := by
  rcases hm : jsGet m li with _ | inner
  · have hres : styleMapSet m li ci st =
        jsSet (jsSet m li []) li (jsSet [] ci st) := by
      unfold styleMapSet
      simp only [hm, Option.isSome_none, Bool.false_eq_true, if_false,
        jsGet_jsSet_self, Option.getD_some]
    rw [hres]
    unfold styleMapGet
    by_cases hli : lj = li
    · subst hli
      rw [jsGet_jsSet_self]
      simp only [Option.some_bind]
      by_cases hci : cj = ci
      · subst hci
        rw [jsGet_jsSet_self, if_pos (by simp)]
      · rw [jsGet_jsSet_ne _ _ _ _ hci, if_neg (fun h => hci h.2), hm]
        rfl
    · rw [jsGet_jsSet_ne _ _ _ _ hli, jsGet_jsSet_ne _ _ _ _ hli,
        if_neg (fun h => hli h.1)]
  · have hres : styleMapSet m li ci st = jsSet m li (jsSet inner ci st) := by
      unfold styleMapSet
      simp only [hm, Option.isSome_some, if_true, Option.getD_some]
    rw [hres]
    unfold styleMapGet
    by_cases hli : lj = li
    · subst hli
      rw [jsGet_jsSet_self]
      simp only [Option.some_bind]
      by_cases hci : cj = ci
      · subst hci
        rw [jsGet_jsSet_self, if_pos (by simp)]
      · rw [jsGet_jsSet_ne _ _ _ _ hci, if_neg (fun h => hci h.2), hm]
        rfl
    · rw [jsGet_jsSet_ne _ _ _ _ hli, if_neg (fun h => hli h.1)]

theorem fold_styleMapSet_get_not_mem {α : Type} (ls : List CursorLocation)
    (m : Store α) (st : α) (t : CursorLocation) (h : t ∉ ls) :
    styleMapGet (ls.foldl (fun acc loc => styleMapSet acc loc.lineIndex loc.charIndex st) m)
        t.lineIndex t.charIndex = styleMapGet m t.lineIndex t.charIndex := by
  induction ls generalizing m with
  | nil => rfl
  | cons l rest ih =>
    have hl : t ≠ l := fun hc => h (hc ▸ List.mem_cons_self l rest)
    have hrest : t ∉ rest := fun hc => h (List.mem_cons_of_mem l hc)
    have hcond : ¬(t.lineIndex = l.lineIndex ∧ t.charIndex = l.charIndex) := by
      rintro ⟨h1, h2⟩
      apply hl
      cases t
      cases l
      simp_all
    simp only [List.foldl_cons]
    rw [ih _ hrest, styleMapGet_styleMapSet, if_neg hcond]

theorem fold_styleMapSet_get_once {α : Type} (ls : List CursorLocation)
    (m : Store α) (st : α) (t : CursorLocation) (h : ls.count t = 1) :
    styleMapGet (ls.foldl (fun acc loc => styleMapSet acc loc.lineIndex loc.charIndex st) m)
        t.lineIndex t.charIndex = some st := by
  induction ls generalizing m with
  | nil => simp at h
  | cons l rest ih =>
    simp only [List.foldl_cons]
    by_cases hl : l = t
    · subst hl
      have hrest : l ∉ rest := by
        rw [List.count_cons_self] at h
        intro hc
        have := List.count_pos_iff.mpr hc
        omega
      rw [fold_styleMapSet_get_not_mem rest _ st l hrest]
      rw [styleMapGet_styleMapSet, if_pos (by exact ⟨rfl, rfl⟩)]
    · have hrest : rest.count t = 1 := by
        rw [List.count_cons_of_ne (fun hc => hl hc.symm)] at h
        exact h
      have hcond : ¬(t.lineIndex = l.lineIndex ∧ t.charIndex = l.charIndex) := by
        rintro ⟨h1, h2⟩
        apply hl
        cases t
        cases l
        simp_all
      rw [ih _ hrest]

theorem foldl_map_styleMapSet {α : Type} (lines : List (List Char)) (st : α)
    (is : List Nat) (m : Store α) :
    is.foldl (fun acc i => styleMapSet acc (linearToLocation lines i).lineIndex
        (linearToLocation lines i).charIndex st) m =
      (is.map (linearToLocation lines)).foldl
        (fun acc loc => styleMapSet acc loc.lineIndex loc.charIndex st) m := by
  induction is generalizing m with
  | nil => rfl
  | cons a t ih =>
    simp only [List.foldl_cons, List.map_cons]
    exact ih _

theorem jsGet_isSome_iff {α : Type} (m : List (Nat × α)) (k : Nat) :
    (jsGet m k).isSome = true ↔ k ∈ m.map Prod.fst := by
  induction m with
  | nil => simp [jsGet_nil]
  | cons p t ih =>
    obtain ⟨a, w⟩ := p
    rw [jsGet_cons]
    by_cases h : a = k
    · simp [h]
    · rw [if_neg h]
      simp only [List.map_cons, List.mem_cons]
      rw [ih]
      constructor
      · intro hk
        exact Or.inr hk
      · rintro (hk | hk)
        · exact absurd hk.symm h
        · exact hk

theorem jsGet_eq_none_iff {α : Type} (m : List (Nat × α)) (k : Nat) :
    jsGet m k = none ↔ k ∉ m.map Prod.fst := by
  rw [← jsGet_isSome_iff]
  cases jsGet m k <;> simp

theorem jsGet_of_mem_nodup {α : Type} (m : List (Nat × α)) (k : Nat) (v : α)
    (hnd : (m.map Prod.fst).Nodup) (hmem : (k, v) ∈ m) : jsGet m k = some v := by
  induction m with
  | nil => simp at hmem
  | cons p t ih =>
    obtain ⟨a, w⟩ := p
    rcases List.mem_cons.mp hmem with heq | hmemt
    · injection heq with h1 h2
      subst h1; subst h2
      rw [jsGet_cons, if_pos rfl]
    · have ha : a ≠ k := by
        intro hak
        subst hak
        have : a ∈ t.map Prod.fst := List.mem_map_of_mem Prod.fst hmemt
        simp only [List.map_cons, List.nodup_cons] at hnd
        exact hnd.1 this
      rw [jsGet_cons, if_neg ha]
      exact ih (by simp only [List.map_cons, List.nodup_cons] at hnd; exact hnd.2) hmemt

theorem jsGet_eq_some_mem {α : Type} (m : List (Nat × α)) (k : Nat) (v : α)
    (h : jsGet m k = some v) : (k, v) ∈ m := by
  induction m with
  | nil => simp [jsGet_nil] at h
  | cons p t ih =>
    obtain ⟨a, w⟩ := p
    by_cases ha : a = k
    · rw [jsGet_cons, if_pos ha] at h
      injection h with h1
      subst ha; subst h1
      exact List.mem_cons_self _ _
    · rw [jsGet_cons, if_neg ha] at h
      exact List.mem_cons_of_mem _ (ih h)

theorem jsSet_keys_of_isSome {α : Type} (m : List (Nat × α)) (k : Nat) (v : α)
    (h : (jsGet m k).isSome) :
    (jsSet m k v).map Prod.fst = m.map Prod.fst := by
  unfold jsSet
  rw [if_pos h, List.map_map]
  apply List.map_congr_left
  intro p _
  by_cases hp : p.1 = k <;> simp [hp]

theorem jsSet_keys_of_none {α : Type} (m : List (Nat × α)) (k : Nat) (v : α)
    (h : jsGet m k = none) :
    (jsSet m k v).map Prod.fst = m.map Prod.fst ++ [k] := by
  unfold jsSet
  rw [if_neg (by rw [h]; simp)]
  simp

theorem jsSet_keys_nodup {α : Type} (m : List (Nat × α)) (k : Nat) (v : α)
    (h : (m.map Prod.fst).Nodup) : ((jsSet m k v).map Prod.fst).Nodup := by
  rcases hk : jsGet m k with _ | w
  · rw [jsSet_keys_of_none m k v hk]
    rw [List.nodup_append]
    refine ⟨h, List.nodup_singleton k, ?_⟩
    intro x hx hx1
    rw [List.mem_singleton] at hx1
    subst hx1
    exact (jsGet_eq_none_iff m x).mp hk hx
  · rw [jsSet_keys_of_isSome m k v (by rw [hk]; rfl)]
    exact h

theorem foldl_jsSet_pairs_keys_nodup {α : Type} (pairs : List (Nat × α))
    (acc : List (Nat × α)) (h : (acc.map Prod.fst).Nodup) :
    (((pairs.foldl (fun a pr => jsSet a pr.1 pr.2) acc)).map Prod.fst).Nodup := by
  induction pairs generalizing acc with
  | nil => exact h
  | cons p t ih =>
    simp only [List.foldl_cons]
    exact ih _ (jsSet_keys_nodup _ _ _ h)

theorem foldl_jsSet_pairs_not_mem {α : Type} (pairs : List (Nat × α))
    (acc : List (Nat × α)) (k : Nat) (h : k ∉ pairs.map Prod.fst) :
    jsGet (pairs.foldl (fun a pr => jsSet a pr.1 pr.2) acc) k = jsGet acc k := by
  induction pairs generalizing acc with
  | nil => rfl
  | cons p t ih =>
    obtain ⟨a, w⟩ := p
    have ha : k ≠ a := by
      intro hk
      exact h (by simp [hk])
    have ht : k ∉ t.map Prod.fst := fun hc => h (by simp [hc])
    simp only [List.foldl_cons]
    rw [ih _ ht, jsGet_jsSet_ne _ _ _ _ ha]

theorem foldl_jsSet_pairs_mem {α : Type} (pairs : List (Nat × α))
    (acc : List (Nat × α)) (k : Nat) (v : α)
    (hnd : (pairs.map Prod.fst).Nodup) (hmem : (k, v) ∈ pairs) :
    jsGet (pairs.foldl (fun a pr => jsSet a pr.1 pr.2) acc) k = some v := by
  induction pairs generalizing acc with
  | nil => simp at hmem
  | cons p t ih =>
    obtain ⟨a, w⟩ := p
    simp only [List.map_cons, List.nodup_cons] at hnd
    rcases List.mem_cons.mp hmem with heq | hmemt
    · injection heq with h1 h2
      subst h1; subst h2
      have ht : k ∉ t.map Prod.fst := hnd.1
      simp only [List.foldl_cons]
      rw [foldl_jsSet_pairs_not_mem _ _ _ ht, jsGet_jsSet_self]
    · have ha : k ≠ a := by
        intro hk
        subst hk
        exact hnd.1 (List.mem_map_of_mem Prod.fst hmemt)
      simp only [List.foldl_cons]
      exact ih _ hnd.2 hmemt

/-- The flattened (linear offset, style) pairs of the 2D store, in iteration
order. -/
def collectPairs {α : Type} (lines : List (List Char)) (styles : Store α) :
    List (Nat × α) :=
  styles.flatMap fun p => p.2.map fun q => (locationToLinear lines p.1 q.1, q.2)

theorem foldl_map_jsSet_pairs {α β : Type} (l : List β) (key : β → Nat)
    (val : β → α) (acc : List (Nat × α)) :
    (l.map fun q => (key q, val q)).foldl (fun a pr => jsSet a pr.1 pr.2) acc =
      l.foldl (fun a q => jsSet a (key q) (val q)) acc := by
  induction l generalizing acc with
  | nil => rfl
  | cons b t ih =>
    simp only [List.map_cons, List.foldl_cons]
    exact ih _

theorem collectLinearStyles_eq_foldl_pairs {α : Type} (lines : List (List Char))
    (styles : Store α) :
    collectLinearStyles lines styles =
      (collectPairs lines styles).foldl (fun a pr => jsSet a pr.1 pr.2) [] := by
  unfold collectLinearStyles collectPairs
  generalize ([] : List (Nat × α)) = acc
  induction styles generalizing acc with
  | nil => rfl
  | cons p rest ih =>
    simp only [List.foldl_cons, List.flatMap_cons, List.foldl_append]
    rw [ih, foldl_map_jsSet_pairs]

theorem collect_keys_nodup {α : Type} (lines : List (List Char)) (styles : Store α) :
    ((collectLinearStyles lines styles).map Prod.fst).Nodup := by
  rw [collectLinearStyles_eq_foldl_pairs]
  exact foldl_jsSet_pairs_keys_nodup _ _ (by simp)

/-- The data-model invariant on the style store: JS `Map` keys are unique at
both levels, and every key references a valid (line, column) position of the
current line array (columns may sit at a line's end, the newline slot). -/
def StoreValid {α : Type} (lines : List (List Char)) (styles : Store α) : Prop :=
  (styles.map Prod.fst).Nodup ∧
  ∀ p ∈ styles, p.1 < lines.length ∧ (p.2.map Prod.fst).Nodup ∧
    ∀ q ∈ p.2, q.1 ≤ (lines.getD p.1 []).length

theorem collectPairs_keys {α : Type} (lines : List (List Char)) (styles : Store α) :
    (collectPairs lines styles).map Prod.fst =
      styles.flatMap fun p => p.2.map fun q => locationToLinear lines p.1 q.1 := by
  unfold collectPairs
  rw [List.map_flatMap]
  congr 1
  funext p
  rw [List.map_map]
  rfl

theorem collectPairs_keys_nodup {α : Type} (lines : List (List Char))
    (styles : Store α) (hvalid : StoreValid lines styles) :
    ((collectPairs lines styles).map Prod.fst).Nodup := by
  obtain ⟨houter, hent⟩ := hvalid
  rw [collectPairs_keys]
  rw [List.nodup_flatMap]
  constructor
  · intro p hp
    obtain ⟨hlt, hnd, hcols⟩ := hent p hp
    have hcomp : (fun q : Nat × α => locationToLinear lines p.1 q.1) =
        (fun c => locationToLinear lines p.1 c) ∘ Prod.fst := by
      funext q
      rfl
    rw [hcomp, ← List.map_map]
    apply List.Nodup.map_on ?_ hnd
    intro x hx y hy hxy
    have hxb : x ≤ (lines.getD p.1 []).length := by
      obtain ⟨q, hq, hq1⟩ := List.mem_map.mp hx
      exact hq1 ▸ hcols q hq
    have hyb : y ≤ (lines.getD p.1 []).length := by
      obtain ⟨q, hq, hq1⟩ := List.mem_map.mp hy
      exact hq1 ▸ hcols q hq
    exact (locationToLinear_inj lines p.1 x p.1 y hlt hxb hlt hyb hxy).2
  · have hpw : styles.Pairwise fun p p' => p.1 ≠ p'.1 :=
      List.pairwise_map.mp houter
    apply hpw.imp_of_mem
    intro p p' hp hp' hne
    rw [Function.onFun]
    rw [List.disjoint_left]
    intro x hx hx'
    obtain ⟨q, hq, hq1⟩ := List.mem_map.mp hx
    obtain ⟨q', hq', hq1'⟩ := List.mem_map.mp hx'
    obtain ⟨hlt, _, hcols⟩ := hent p hp
    obtain ⟨hlt', _, hcols'⟩ := hent p' hp'
    have hxy : locationToLinear lines p.1 q.1 = locationToLinear lines p'.1 q'.1 := by
      rw [hq1, hq1']
    exact hne (locationToLinear_inj lines p.1 q.1 p'.1 q'.1 hlt (hcols q hq)
      hlt' (hcols' q' hq') hxy).1

theorem collect_lookup {α : Type} (lines : List (List Char)) (styles : Store α)
    (hvalid : StoreValid lines styles) (li ci : Nat)
    (hli : li < lines.length) (hci : ci ≤ (lines.getD li []).length) :
    jsGet (collectLinearStyles lines styles) (locationToLinear lines li ci) =
      styleMapGet styles li ci := by
  rw [collectLinearStyles_eq_foldl_pairs]
  rcases hsg : styleMapGet styles li ci with _ | st
  · rcases hmemk : decide ((locationToLinear lines li ci) ∈ (collectPairs lines styles).map Prod.fst) with _ | _
    · rw [foldl_jsSet_pairs_not_mem _ _ _ (by simpa using hmemk)]
      rfl
    · exfalso
      have hmem : (locationToLinear lines li ci) ∈ (collectPairs lines styles).map Prod.fst := by
        simpa using hmemk
      rw [collectPairs_keys] at hmem
      rw [List.mem_flatMap] at hmem
      obtain ⟨p, hp, hx⟩ := hmem
      obtain ⟨q, hq, hq1⟩ := List.mem_map.mp hx
      obtain ⟨hlt, hnd, hcols⟩ := hvalid.2 p hp
      obtain ⟨h1, h2⟩ := locationToLinear_inj lines p.1 q.1 li ci hlt (hcols q hq)
        hli hci hq1
      have houter : jsGet styles li = some p.2 := by
        apply jsGet_of_mem_nodup styles li p.2 hvalid.1
        rw [← h1]
        exact hp
      have hinner : jsGet p.2 ci = some q.2 := by
        apply jsGet_of_mem_nodup p.2 ci q.2 hnd
        rw [← h2]
        exact hq
      unfold styleMapGet at hsg
      rw [houter] at hsg
      simp only [Option.some_bind] at hsg
      rw [hinner] at hsg
      exact Option.noConfusion hsg
  · unfold styleMapGet at hsg
    rcases houter : jsGet styles li with _ | inner
    · rw [houter] at hsg
      simp at hsg
    · rw [houter] at hsg
      simp only [Option.some_bind] at hsg
      have hpmem : (li, inner) ∈ styles := jsGet_eq_some_mem styles li inner houter
      have hqmem : (ci, st) ∈ inner := jsGet_eq_some_mem inner ci st hsg
      apply foldl_jsSet_pairs_mem _ _ _ _
        (collectPairs_keys_nodup lines styles hvalid)
      unfold collectPairs
      rw [List.mem_flatMap]
      refine ⟨(li, inner), hpmem, ?_⟩
      rw [List.mem_map]
      exact ⟨(ci, st), hqmem, rfl⟩

theorem sortIndices_perm (l : List Nat) : List.Perm (sortIndices l) l :=
  List.perm_insertionSort (· ≤ ·) l

theorem sortIndices_sorted (l : List Nat) : (sortIndices l).Sorted (· ≤ ·) :=
  List.sorted_insertionSort (· ≤ ·) l

theorem sortIndices_pairwise_lt (l : List Nat) (h : l.Nodup) :
    (sortIndices l).Pairwise (· < ·) := by
  have hnd : (sortIndices l).Nodup := ((sortIndices_perm l).nodup_iff).mpr h
  have hs := sortIndices_sorted l
  have := List.Pairwise.and hs hnd
  exact this.imp fun hab => lt_of_le_of_ne hab.1 hab.2

theorem compressGo_unfold_cons {α : Type} [DecidableEq α] [Inhabited α]
    (linear : List (Nat × α)) (index : Nat)
    (rest : List Nat) (cs : Nat) (cst : α) (li : Nat) :
    compressGo linear (index :: rest) cs cst li =
      if index = li + 1 ∧ (jsGet linear index).getD default = cst then
        compressGo linear rest cs cst index
      else
        ⟨cs, li + 1, cst⟩ ::
          compressGo linear rest index ((jsGet linear index).getD default) index := rfl

theorem compressGo_spec {α : Type} [DecidableEq α] [Inhabited α]
    (linear : List (Nat × α)) (rest : List Nat) :
    ∀ (cs : Nat) (cst : α) (li : Nat), cs ≤ li →
      rest.Pairwise (· < ·) → (∀ x ∈ rest, li < x) →
      (∃ stop1 tl, compressGo linear rest cs cst li = ⟨cs, stop1, cst⟩ :: tl ∧
        li + 1 ≤ stop1) ∧
      (∀ r ∈ compressGo linear rest cs cst li, r.start < r.stop) ∧
      (∀ r ∈ compressGo linear rest cs cst li, cs ≤ r.start) ∧
      (compressGo linear rest cs cst li).Pairwise (fun r1 r2 => r1.stop ≤ r2.start) ∧
      (compressGo linear rest cs cst li).Chain'
        (fun r1 r2 => r1.stop = r2.start → r1.style ≠ r2.style) := by
  induction rest with
  | nil =>
    intro cs cst li hcs _ _
    refine ⟨⟨li + 1, [], rfl, Nat.le_refl _⟩, ?_, ?_, ?_, ?_⟩
    · intro r hr
      rw [show compressGo linear [] cs cst li = [⟨cs, li + 1, cst⟩] from rfl] at hr
      rw [List.mem_singleton] at hr
      subst hr
      show cs < li + 1
      omega
    · intro r hr
      rw [show compressGo linear [] cs cst li = [⟨cs, li + 1, cst⟩] from rfl] at hr
      rw [List.mem_singleton] at hr
      subst hr
      exact Nat.le_refl _
    · exact List.pairwise_singleton _ _
    · exact List.chain'_singleton _
  | cons index rest' ih =>
    intro cs cst li hcs hpw hgt
    have hidx : li < index := hgt index (List.mem_cons_self _ _)
    have hpw' : rest'.Pairwise (· < ·) := hpw.of_cons
    have hgt' : ∀ x ∈ rest', index < x := fun x hx =>
      List.rel_of_pairwise_cons hpw hx
    rw [compressGo_unfold_cons]
    by_cases hcond : index = li + 1 ∧ (jsGet linear index).getD default = cst
    · rw [if_pos hcond]
      obtain ⟨⟨stop1, tl, heq, hstop⟩, h1, h2, h3, h4⟩ :=
        ih cs cst index (by omega) hpw' hgt'
      exact ⟨⟨stop1, tl, heq, by omega⟩, h1, h2, h3, h4⟩
    · rw [if_neg hcond]
      obtain ⟨⟨stop1, tl, heq, hstop⟩, h1, h2, h3, h4⟩ :=
        ih index ((jsGet linear index).getD default) index (Nat.le_refl _) hpw' hgt'
      refine ⟨⟨li + 1, _, rfl, Nat.le_refl _⟩, ?_, ?_, ?_, ?_⟩
      · intro r hr
        rcases List.mem_cons.mp hr with hr | hr
        · subst hr
          show cs < li + 1
          omega
        · exact h1 r hr
      · intro r hr
        rcases List.mem_cons.mp hr with hr | hr
        · subst hr
          exact Nat.le_refl _
        · have := h2 r hr
          omega
      · rw [List.pairwise_cons]
        refine ⟨?_, h3⟩
        intro r hr
        have := h2 r hr
        show li + 1 ≤ r.start
        omega
      · rw [heq, List.chain'_cons]
        rw [heq] at h4
        refine ⟨?_, h4⟩
        intro hstopeq hstyleeq
        have h5 : li + 1 = index := hstopeq
        have h6 : cst = (jsGet linear index).getD default := hstyleeq
        apply hcond
        exact ⟨h5.symm, h6.symm⟩

/-- The ranges produced by `_compressToStyleRanges` are well-formed
(`start < end`), pairwise disjoint and sorted by increasing start, and no
two adjacent output ranges pass the code's style-equality check (generic in
the stored record type, with its decidable equality standing for the
comparison `JSON.stringify(style) === JSON.stringify(currentStyle)`). -/
theorem compress_ranges_wellformed {α : Type} [DecidableEq α] [Inhabited α]
    (lines : List (List Char)) (styles : Store α) :
    (∀ r ∈ compressToStyleRanges lines styles, r.start < r.stop) ∧
    (compressToStyleRanges lines styles).Pairwise (fun r1 r2 => r1.stop ≤ r2.start) ∧
    (compressToStyleRanges lines styles).Pairwise (fun r1 r2 => r1.start < r2.start) ∧
    (compressToStyleRanges lines styles).Chain'
      (fun r1 r2 => r1.stop = r2.start → r1.style ≠ r2.style) := by
  unfold compressToStyleRanges
  by_cases hempty : collectLinearStyles lines styles = []
  · rw [if_pos hempty]
    exact ⟨by simp, List.Pairwise.nil, List.Pairwise.nil, List.chain'_nil⟩
  · rw [if_neg hempty]
    rcases hsort : sortIndices ((collectLinearStyles lines styles).map Prod.fst) with _ | ⟨i0, rest⟩
    · exact ⟨by simp, List.Pairwise.nil, List.Pairwise.nil, List.chain'_nil⟩
    · have hnd : ((collectLinearStyles lines styles).map Prod.fst).Nodup :=
        collect_keys_nodup lines styles
      have hplt := sortIndices_pairwise_lt _ hnd
      rw [hsort] at hplt
      have hpw' : rest.Pairwise (· < ·) := hplt.of_cons
      have hgt' : ∀ x ∈ rest, i0 < x := fun x hx =>
        List.rel_of_pairwise_cons hplt hx
      obtain ⟨_, h1, h2, h3, h4⟩ := compressGo_spec (collectLinearStyles lines styles)
        rest i0 ((jsGet (collectLinearStyles lines styles) i0).getD default) i0
        (Nat.le_refl _) hpw' hgt'
      refine ⟨h1, h3, ?_, h4⟩
      apply h3.imp_of_mem
      intro r1 r2 hr1 hr2 hrel
      have := h1 r1 hr1
      omega

theorem Option.eq_none_of_isSome_false {α : Type} (o : Option α)
    (h : o.isSome = false) : o = none := by
  cases o
  · rfl
  · simp at h

theorem compressGo_coverage {α : Type} [DecidableEq α] [Inhabited α]
    (linear : List (Nat × α)) (rest : List Nat) :
    ∀ (cs : Nat) (cst : α) (li : Nat), cs ≤ li →
      rest.Pairwise (· < ·) → (∀ x ∈ rest, li < x) →
      (∀ j, cs ≤ j → j ≤ li → jsGet linear j = some cst) →
      (∀ x, li < x → ((jsGet linear x).isSome = true ↔ x ∈ rest)) →
      (∀ i, cs ≤ i → rangesAt (compressGo linear rest cs cst li) i = jsGet linear i) ∧
      (∀ i, i < cs → rangesAt (compressGo linear rest cs cst li) i = none) := by
  induction rest with
  | nil =>
    intro cs cst li hcs _ _ hrun hkeys
    constructor
    · intro i hi
      rw [show compressGo linear [] cs cst li = [⟨cs, li + 1, cst⟩] from rfl]
      unfold rangesAt
      by_cases hcov : i ≤ li
      · rw [if_pos ⟨hi, by show i < li + 1; omega⟩]
        exact (hrun i hi hcov).symm
      · rw [if_neg (by rintro ⟨_, h2⟩; revert h2; show ¬i < li + 1; omega)]
        have := hkeys i (by omega)
        simp only [List.not_mem_nil, iff_false] at this
        exact ((Option.eq_none_of_isSome_false _ (by
          cases h : (jsGet linear i).isSome
          · rfl
          · exact absurd h this)).symm ▸ rfl)
    · intro i hi
      rw [show compressGo linear [] cs cst li = [⟨cs, li + 1, cst⟩] from rfl]
      unfold rangesAt
      rw [if_neg (by rintro ⟨h1, _⟩; revert h1; show ¬(cs ≤ i); omega)]
      rfl
  | cons index rest' ih =>
    intro cs cst li hcs hpw hgt hrun hkeys
    have hidx : li < index := hgt index (List.mem_cons_self _ _)
    have hpw' : rest'.Pairwise (· < ·) := hpw.of_cons
    have hgt' : ∀ x ∈ rest', index < x := fun x hx =>
      List.rel_of_pairwise_cons hpw hx
    have hsome : (jsGet linear index).isSome = true :=
      (hkeys index hidx).mpr (List.mem_cons_self _ _)
    have hidxval : jsGet linear index = some ((jsGet linear index).getD default) := by
      rcases h : jsGet linear index with _ | v
      · rw [h] at hsome
        simp at hsome
      · rfl
    have hkeys' : ∀ x, index < x → ((jsGet linear x).isSome = true ↔ x ∈ rest') := by
      intro x hx
      rw [hkeys x (by omega)]
      constructor
      · intro hmem
        rcases List.mem_cons.mp hmem with h | h
        · omega
        · exact h
      · intro h
        exact List.mem_cons_of_mem _ h
    rw [compressGo_unfold_cons]
    by_cases hcond : index = li + 1 ∧ (jsGet linear index).getD default = cst
    · rw [if_pos hcond]
      have hrun' : ∀ j, cs ≤ j → j ≤ index → jsGet linear j = some cst := by
        intro j h1 h2
        by_cases hj : j ≤ li
        · exact hrun j h1 hj
        · have : j = index := by omega
          subst this
          rw [hidxval, hcond.2]
      exact ih cs cst index (by omega) hpw' hgt' hrun' hkeys'
    · rw [if_neg hcond]
      have hrun' : ∀ j, index ≤ j → j ≤ index → jsGet linear j =
          some ((jsGet linear index).getD default) := by
        intro j h1 h2
        have : j = index := by omega
        subst this
        exact hidxval
      obtain ⟨ihA, ihB⟩ := ih index ((jsGet linear index).getD default) index
        (Nat.le_refl _) hpw' hgt' hrun' hkeys'
      constructor
      · intro i hi
        unfold rangesAt
        by_cases hcov : i ≤ li
        · rw [if_pos ⟨hi, by show i < li + 1; omega⟩]
          exact (hrun i hi hcov).symm
        · rw [if_neg (by rintro ⟨_, h2⟩; revert h2; show ¬i < li + 1; omega)]
          by_cases hge : index ≤ i
          · exact ihA i hge
          · rw [ihB i (by omega)]
            have hmem := hkeys i (by omega)
            have hnot : i ∉ index :: rest' := by
              intro hc
              rcases List.mem_cons.mp hc with h | h
              · omega
              · have := hgt' i h
                omega
            symm
            apply Option.eq_none_of_isSome_false
            cases h : (jsGet linear i).isSome
            · rfl
            · exact absurd (hmem.mp h) hnot
      · intro i hi
        unfold rangesAt
        rw [if_neg (by rintro ⟨h1, _⟩; revert h1; show ¬(cs ≤ i); omega)]
        exact ihB i (by omega)

theorem compress_coverage {α : Type} [DecidableEq α] [Inhabited α]
    (lines : List (List Char)) (styles : Store α) :
    ∀ i, rangesAt (compressToStyleRanges lines styles) i =
      jsGet (collectLinearStyles lines styles) i := by
  intro i
  unfold compressToStyleRanges
  by_cases hempty : collectLinearStyles lines styles = []
  · rw [if_pos hempty, hempty]
    rfl
  · rw [if_neg hempty]
    have hnd : ((collectLinearStyles lines styles).map Prod.fst).Nodup :=
      collect_keys_nodup lines styles
    rcases hsort : sortIndices ((collectLinearStyles lines styles).map Prod.fst) with _ | ⟨i0, rest⟩
    · exfalso
      have hperm := sortIndices_perm ((collectLinearStyles lines styles).map Prod.fst)
      rw [hsort] at hperm
      have := hperm.symm.eq_nil
      exact hempty (List.map_eq_nil_iff.mp this)
    · have hperm := sortIndices_perm ((collectLinearStyles lines styles).map Prod.fst)
      rw [hsort] at hperm
      have hplt := sortIndices_pairwise_lt _ hnd
      rw [hsort] at hplt
      have hpw' : rest.Pairwise (· < ·) := hplt.of_cons
      have hgt' : ∀ x ∈ rest, i0 < x := fun x hx =>
        List.rel_of_pairwise_cons hplt hx
      have hmem0 : i0 ∈ (collectLinearStyles lines styles).map Prod.fst :=
        hperm.mem_iff.mp (List.mem_cons_self _ _)
      have hsome0 : (jsGet (collectLinearStyles lines styles) i0).isSome = true :=
        (jsGet_isSome_iff _ _).mpr hmem0
      have hrun : ∀ j, i0 ≤ j → j ≤ i0 →
          jsGet (collectLinearStyles lines styles) j =
            some ((jsGet (collectLinearStyles lines styles) i0).getD default) := by
        intro j h1 h2
        have : j = i0 := by omega
        subst this
        rcases h : jsGet (collectLinearStyles lines styles) j with _ | v
        · rw [h] at hsome0
          simp at hsome0
        · rfl
      have hkeys : ∀ x, i0 < x →
          (((jsGet (collectLinearStyles lines styles) x).isSome = true) ↔ x ∈ rest) := by
        intro x hx
        rw [jsGet_isSome_iff]
        rw [← hperm.mem_iff]
        constructor
        · intro hmem
          rcases List.mem_cons.mp hmem with h | h
          · omega
          · exact h
        · intro h
          exact List.mem_cons_of_mem _ h
      obtain ⟨ihA, ihB⟩ := compressGo_coverage (collectLinearStyles lines styles)
        rest i0 ((jsGet (collectLinearStyles lines styles) i0).getD default) i0
        (Nat.le_refl _) hpw' hgt' hrun hkeys
      by_cases hge : i0 ≤ i
      · exact ihA i hge
      · rw [ihB i (by omega)]
        have hnot : i ∉ (collectLinearStyles lines styles).map Prod.fst := by
          rw [← hperm.mem_iff]
          intro hc
          rcases List.mem_cons.mp hc with h | h
          · omega
          · have := hgt' i h
            omega
        symm
        rw [jsGet_eq_none_iff]
        exact hnot

theorem rangesAt_eq_none_of_lt {α : Type} (rs : List (StyleRange α)) (i : Nat)
    (h : ∀ r ∈ rs, i < r.start) : rangesAt rs i = none := by
  induction rs with
  | nil => rfl
  | cons r t ih =>
    unfold rangesAt
    rw [if_neg]
    · exact ih fun r' hr' => h r' (List.mem_cons_of_mem _ hr')
    · rintro ⟨h1, _⟩
      have := h r (List.mem_cons_self _ _)
      omega

theorem loadRange_get_cov {α : Type} (lines : List (List Char)) (hne : lines ≠ [])
    (gc : Nat) (hgc : gc ≤ linearLength lines) (r : StyleRange α) (m0 : Store α)
    (li ci : Nat) (hli : li < lines.length) (hci : ci ≤ (lines.getD li []).length)
    (hit : locationToLinear lines li ci < gc)
    (hcov : r.start ≤ locationToLinear lines li ci ∧
      locationToLinear lines li ci < r.stop) :
    styleMapGet ((List.range' r.start (min r.stop gc - r.start)).foldl
      (fun m2 i => styleMapSet m2 (linearToLocation lines i).lineIndex
        (linearToLocation lines i).charIndex r.style) m0) li ci = some r.style := by
  rw [foldl_map_styleMapSet]
  have hloc : linearToLocation lines (locationToLinear lines li ci) = ⟨li, ci⟩ :=
    linearToLocation_locationToLinear lines li ci hli hci
  have hcount := count_loc_range_eq_one lines hne r.start (min r.stop gc - r.start)
    (locationToLinear lines li ci) (by omega) (by omega) (by omega)
  rw [hloc] at hcount
  exact fold_styleMapSet_get_once _ m0 r.style ⟨li, ci⟩ hcount

theorem loadRange_get_not_cov {α : Type} (lines : List (List Char)) (hne : lines ≠ [])
    (gc : Nat) (hgc : gc ≤ linearLength lines) (r : StyleRange α) (m0 : Store α)
    (li ci : Nat) (hli : li < lines.length) (hci : ci ≤ (lines.getD li []).length)
    (hncov : ¬(r.start ≤ locationToLinear lines li ci ∧
      locationToLinear lines li ci < r.stop)) :
    styleMapGet ((List.range' r.start (min r.stop gc - r.start)).foldl
      (fun m2 i => styleMapSet m2 (linearToLocation lines i).lineIndex
        (linearToLocation lines i).charIndex r.style) m0) li ci =
      styleMapGet m0 li ci := by
  rw [foldl_map_styleMapSet]
  refine fold_styleMapSet_get_not_mem
    ((List.range' r.start (min r.stop gc - r.start)).map (linearToLocation lines))
    m0 r.style ⟨li, ci⟩ ?_
  intro hmem
  obtain ⟨j, hj, hjloc⟩ := List.mem_map.mp hmem
  rw [mem_range1] at hj
  have hjL : j ≤ linearLength lines := by omega
  have hr := linear_roundtrip_of_le lines hne j hjL
  rw [hjloc] at hr
  have hr' : locationToLinear lines li ci = j := hr
  apply hncov
  constructor <;> omega

theorem load_lookup {α : Type} (lines : List (List Char)) (hne : lines ≠ [])
    (gc : Nat) (hgc : gc ≤ linearLength lines) (ranges : List (StyleRange α))
    (m0 : Store α) (li ci : Nat)
    (hli : li < lines.length) (hci : ci ≤ (lines.getD li []).length)
    (hit : locationToLinear lines li ci < gc)
    (hdisj : ranges.Pairwise fun r1 r2 => r1.stop ≤ r2.start) :
    styleMapGet (ranges.foldl (fun m r =>
        (List.range' r.start (min r.stop gc - r.start)).foldl (fun m2 i =>
          styleMapSet m2 (linearToLocation lines i).lineIndex
            (linearToLocation lines i).charIndex r.style) m) m0) li ci =
      match rangesAt ranges (locationToLinear lines li ci) with
      | some st => some st
      | none => styleMapGet m0 li ci := by
  induction ranges generalizing m0 with
  | nil => rfl
  | cons r rs ih =>
    have hconsAt : ∀ i, rangesAt (r :: rs) i =
        if r.start ≤ i ∧ i < r.stop then some r.style else rangesAt rs i :=
      fun _ => rfl
    simp only [List.foldl_cons]
    by_cases hcov : r.start ≤ locationToLinear lines li ci ∧
        locationToLinear lines li ci < r.stop
    · have hnone : rangesAt rs (locationToLinear lines li ci) = none := by
        apply rangesAt_eq_none_of_lt
        intro r' hr'
        have := List.rel_of_pairwise_cons hdisj hr'
        omega
      rw [ih _ hdisj.of_cons, hconsAt, if_pos hcov, hnone]
      exact loadRange_get_cov lines hne gc hgc r m0 li ci hli hci hit hcov
    · rw [ih _ hdisj.of_cons, hconsAt, if_neg hcov]
      rcases h : rangesAt rs (locationToLinear lines li ci) with _ | st
      · exact loadRange_get_not_cov lines hne gc hgc r m0 li ci hli hci hcov
      · rfl

/-- C4 (amended): for a valid style store over a line array that is the
newline split of the graphemes — the no-wrap configurations (`autoWidth`,
`textWrap: 'none'`, or no width), where the linear offset space matches the
grapheme count — compressing to style ranges and loading the result back on
the same text reproduces the exact override, hence an equivalent resolved
style, for every character of the document.  Under soft wrapping the linear
space exceeds the grapheme count and end-of-text overrides are dropped (see
the counterexample). -/
theorem C4_range_codec_roundtrip (gs : List Char) (styles : StyleMap)
    (hvalid : StoreValid (splitLinesByNewline gs) styles)
    (li ci : Nat) (hli : li < (splitLinesByNewline gs).length)
    (hci : ci < ((splitLinesByNewline gs).getD li []).length) :
    styleMapGet (loadFromStyleRanges (splitLinesByNewline gs) gs.length
        (compressToStyleRanges (splitLinesByNewline gs) styles)) li ci =
      styleMapGet styles li ci ∧
    ∀ el, getCharStyle el (styleMapGet (loadFromStyleRanges (splitLinesByNewline gs)
        gs.length (compressToStyleRanges (splitLinesByNewline gs) styles)) li ci) =
      getCharStyle el (styleMapGet styles li ci) := by
  have hne : splitLinesByNewline gs ≠ [] := splitLinesByNewline_ne_nil gs
  have hL : linearLength (splitLinesByNewline gs) = gs.length :=
    linearLength_splitLinesByNewline gs
  have hit : locationToLinear (splitLinesByNewline gs) li ci < gs.length := by
    rw [← hL]
    exact locationToLinear_lt_linearLength _ li ci hli hci
  have hdisj := (compress_ranges_wellformed (splitLinesByNewline gs) styles).2.1
  have hover : styleMapGet (loadFromStyleRanges (splitLinesByNewline gs) gs.length
      (compressToStyleRanges (splitLinesByNewline gs) styles)) li ci =
      styleMapGet styles li ci := by
    unfold loadFromStyleRanges
    rw [load_lookup (splitLinesByNewline gs) hne gs.length (by omega) _ [] li ci
      hli (by omega) hit hdisj]
    rw [compress_coverage]
    rw [collect_lookup (splitLinesByNewline gs) styles hvalid li ci hli (by omega)]
    rcases styleMapGet styles li ci with _ | st
    · rfl
    · rfl
  exact ⟨hover, fun el => by rw [hover]⟩

/-- Witness for C4 on the one-line text `"ab"` with two different overrides:
the compress/load round trip reproduces the override of character (0,1). -/
theorem C4_range_codec_roundtrip_witness :
    styleMapGet (loadFromStyleRanges (splitLinesByNewline ['a', 'b'])
        (['a', 'b'] : List Char).length
        (compressToStyleRanges (splitLinesByNewline ['a', 'b'])
          [(0, [(0, redFill), (1, blueFill)])])) 0 1 =
      styleMapGet [(0, [(0, redFill), (1, blueFill)])] 0 1 :=
  (C4_range_codec_roundtrip ['a', 'b'] [(0, [(0, redFill), (1, blueFill)])]
    ⟨by decide, by decide⟩ 0 1 (by decide) (by decide)).1

/-! ### JS-object style representation (property order matters) -/

/-- A partial style as a JS object: ordered (property, value) pairs.
`JSON.stringify` serializes own properties in insertion order, so equality
of this representation is exactly `JSON.stringify` equality of the
objects the source compares. -/
abbrev StyleObj := List (StyleField × StyleVal)

/-- Property lookup on a JS object. -/
def objGet (o : StyleObj) (f : StyleField) : Option StyleVal :=
  (o.find? fun p => p.1 = f).map Prod.snd

/-- JS object spread `{...a, ...b}`: `a`'s properties keep their positions
(taking `b`'s value when `b` also has the property), then `b`'s new
properties follow in `b`'s order. -/
def spreadObj (a b : StyleObj) : StyleObj :=
  (a.map fun p =>
    match objGet b p.1 with
    | some v => (p.1, v)
    | none => p) ++
  b.filter fun q => !(objGet a q.1).isSome

/-- A `fill` override as a JS object. -/
def fillObj : StyleObj := [(StyleField.fill, StyleVal.nat 1)]

/-- A `fontWeight` override as a JS object. -/
def weightObj : StyleObj := [(StyleField.fontWeight, StyleVal.nat 7)]

/-- The override of a character styled `{fill}` first and `{fontWeight}`
second (two `setSelectionStyles` merges, each a JS object spread). -/
def objA : StyleObj := spreadObj (spreadObj [] fillObj) weightObj

/-- The same two styles applied in the opposite order. -/
def objB : StyleObj := spreadObj (spreadObj [] weightObj) fillObj

/-- Counterexample for C5 as stated: on the one-line text `"ab"` whose two
characters carry value-identical overrides built in swapped property
orders, `JSON.stringify` compares unequal, so the code emits two *adjacent*
ranges (`stop 1 = start 1`) whose style records are identical field-wise —
the claimed maximality over identical style records fails. -/
theorem C5_counterexample_adjacent_equal_records :
    compressToStyleRanges [['a', 'b']] [(0, [(0, objA), (1, objB)])] =
      [⟨0, 1, objA⟩, ⟨1, 2, objB⟩] ∧
    (∀ f, objGet objA f = objGet objB f) ∧
    objA ≠ objB :=
  ⟨by decide, fun f => by cases f <;> rfl, by decide⟩

/-- C5 (amended): the ranges produced by `_compressToStyleRanges` have
`start < end`, are pairwise disjoint and sorted by increasing start, and
are maximal with respect to the comparison the code performs: no two
adjacent ranges carry style records with the same JSON serialization (the
same properties in the same insertion order).  Adjacent ranges whose
records are value-identical but property-order-divergent may remain
unmerged. -/
theorem C5_compress_ranges_invariant (lines : List (List Char))
    (styles : Store StyleObj) :
    (∀ r ∈ compressToStyleRanges lines styles, r.start < r.stop) ∧
    (compressToStyleRanges lines styles).Pairwise
      (fun r1 r2 => r1.stop ≤ r2.start) ∧
    (compressToStyleRanges lines styles).Pairwise
      (fun r1 r2 => r1.start < r2.start) ∧
    (compressToStyleRanges lines styles).Chain'
      (fun r1 r2 => r1.stop = r2.start → r1.style ≠ r2.style) :=
  compress_ranges_wellformed lines styles

/-- Counterexample for C4 as stated: with a fixed width and
`textWrap: 'normal'`, `"abcd"` wraps to the line array `["abc", "d"]`, whose
linear offset space (5 slots, `+1` per soft line) exceeds the grapheme count
4.  A valid override on `'d'` at (1,0) exports to linear offset 4, and
`_loadFromStyleRanges`'s bound `i < graphemes.length` drops it: the round
trip loses the character's override and changes its resolved fill. -/
theorem C4_counterexample_wrapped_lines_drop_override :
    styleMapGet (loadFromStyleRanges [['a', 'b', 'c'], ['d']] 4
        (compressToStyleRanges [['a', 'b', 'c'], ['d']]
          [(1, [(0, redFill)])])) 1 0 = none ∧
    styleMapGet [(1, [(0, redFill)])] 1 0 = some redFill ∧
    (getCharStyle elDefault (styleMapGet (loadFromStyleRanges [['a', 'b', 'c'], ['d']] 4
        (compressToStyleRanges [['a', 'b', 'c'], ['d']]
          [(1, [(0, redFill)])])) 1 0)).fill ≠
      (getCharStyle elDefault (styleMapGet [(1, [(0, redFill)])] 1 0)).fill := by
  refine ⟨by decide, by decide, by decide⟩

/-- A pre-existing `fontWeight` override. -/
def weight4 : CharStyle := { fontWeight := some 4 }

/-- Counterexample for C8 as stated: under the wrap-split line array
`["abc", "d"]` of `"abcd"` (grapheme count 4), the merge loop's
`_linearToLocation` spends offset 3 on the phantom end-of-line slot (0,3)
and never reaches character `'d'` at (1,0); its pre-existing
`fontWeight = 4` override survives untouched, so after
`setFullTextStyles {fontWeight: 7}` its resolved style still lacks `P`'s
value. -/
theorem C8_counterexample_wrapped_lines_miss_character :
    styleMapGet (setFullTextStyles [['a', 'b', 'c'], ['d']] elDefault
        [(1, [(0, weight4)])] 4 boldOnly).2 1 0 = some weight4 ∧
    (getCharStyle (setFullTextStyles [['a', 'b', 'c'], ['d']] elDefault
        [(1, [(0, weight4)])] 4 boldOnly).1
      (styleMapGet (setFullTextStyles [['a', 'b', 'c'], ['d']] elDefault
        [(1, [(0, weight4)])] 4 boldOnly).2 1 0)).fontWeight = some 4 ∧
    boldOnly.fontWeight = some 7 := by
  refine ⟨by decide, by decide, by decide⟩
